import Mathlib

/-!
Shallow embedding of the K33-to-Koinly CSV converter (Go package `converter`).

The embedding models, faithfully to the Go source:
  - `formatTradeID` : trade-ID normalization built on `strconv.ParseFloat`
    (64-bit) and `fmt.Sprintf` with the `%.0f` verb.  IEEE-754 double values
    are modelled exactly: a finite double is a pair `(m, e)` with value
    `m * 2^e`, parsing performs correct rounding (round to nearest, ties to
    even) over exact integer arithmetic, and `%.0f` rounds the exact value
    of the double to the nearest integer (ties to even), as Go's `strconv`
    formatting does.
  - `convertTimestamp` : Go `time.Parse` with layout `2006/01/02 15:04:05`
    followed by `Format` with layout `2006-01-02 15:04:05`.  Per Go's
    parser, the two-digit layout fields `01`, `02`, `04`, `05` require
    exactly two digits, the `15` hour field accepts one or two digits, all
    fields are range-checked (including days-per-month with leap years),
    and the whole input must be consumed.
  - `parseK33Record`, `processK33Record`, `processTrade`, the record
    constructors, and the `Process` / `ProcessDryRun` drivers.  The Go map
    `Converter.trades` is modelled as an association list with distinct
    keys; the `csv.Reader` is modelled as a list of read results (a row or
    a read error), end of list standing for `io.EOF`.
-/

/-! ### Character helpers -/

/-- Decimal digit test, same set as Go's `'0' <= c && c <= '9'`. -/
def isDig (c : Char) : Bool :=
  c = '0' || c = '1' || c = '2' || c = '3' || c = '4' ||
  c = '5' || c = '6' || c = '7' || c = '8' || c = '9'

/-- Value of a decimal digit character (digits only; other input yields 9,
which is never reached under `isDig`). -/
def digVal (c : Char) : Nat :=
  if c = '0' then 0 else if c = '1' then 1 else if c = '2' then 2
  else if c = '3' then 3 else if c = '4' then 4 else if c = '5' then 5
  else if c = '6' then 6 else if c = '7' then 7 else if c = '8' then 8
  else 9

/-- Digit character for a value below 10 (values above 9 yield the digit 9,
never reached in use). -/
def digitChar (n : Nat) : Char :=
  match n with
  | 0 => '0' | 1 => '1' | 2 => '2' | 3 => '3' | 4 => '4'
  | 5 => '5' | 6 => '6' | 7 => '7' | 8 => '8' | _ => '9'

/-- Hexadecimal-letter test matching Go's `'a' <= lower(c) && lower(c) <= 'f'`. -/
def isHexLetter (c : Char) : Bool :=
  c = 'a' || c = 'b' || c = 'c' || c = 'd' || c = 'e' || c = 'f' ||
  c = 'A' || c = 'B' || c = 'C' || c = 'D' || c = 'E' || c = 'F'

/-- Hexadecimal digit test: decimal digit or hex letter. -/
def isHexDig (c : Char) : Bool := isDig c || isHexLetter c

/-- Value of a hexadecimal digit character. -/
def hexVal (c : Char) : Nat :=
  if c = 'a' || c = 'A' then 10 else if c = 'b' || c = 'B' then 11
  else if c = 'c' || c = 'C' then 12 else if c = 'd' || c = 'D' then 13
  else if c = 'e' || c = 'E' then 14 else if c = 'f' || c = 'F' then 15
  else digVal c

/-! ### Substring and trimming helpers (Go `strings` package) -/

/-- Whether `pre` is a leading segment of `cs` (by characters). -/
def listLeads : List Char → List Char → Bool
  | [], _ => true
  | _ :: _, [] => false
  | a :: as, b :: bs => a = b && listLeads as bs

/-- Whether `needle` occurs as a contiguous substring of `hay`;
models Go `strings.Contains`. -/
def listHasSub (needle : List Char) : List Char → Bool
  | [] => listLeads needle []
  | c :: rest => listLeads needle (c :: rest) || listHasSub needle rest

/-- Go `strings.Contains s sub`. -/
def strContains (s sub : String) : Bool := listHasSub sub.toList s.toList

/-- Go `strings.TrimPrefix s pre`: remove `pre` from the front of `s` when
it is there, otherwise return `s` unchanged. -/
def stripLeading (s pre : String) : String :=
  if listLeads pre.toList s.toList then String.mk (s.toList.drop pre.toList.length)
  else s

/-- Go `unicode.IsSpace`: the Unicode white-space code points. -/
def isGoSpace (c : Char) : Bool :=
  c = ' ' || c = '\t' || c = '\n' || c = '\x0b' || c = '\x0c' || c = '\r' ||
  c = '\u0085' || c = '\u00A0' || c = '\u1680' ||
  c = '\u2000' || c = '\u2001' || c = '\u2002' || c = '\u2003' ||
  c = '\u2004' || c = '\u2005' || c = '\u2006' || c = '\u2007' ||
  c = '\u2008' || c = '\u2009' || c = '\u200A' ||
  c = '\u2028' || c = '\u2029' || c = '\u202F' || c = '\u205F' || c = '\u3000'

/-- Go `strings.TrimSpace`. -/
def goTrimSpace (s : String) : String :=
  String.mk (((s.toList.dropWhile isGoSpace).reverse.dropWhile isGoSpace).reverse)

/-! ### Decimal rendering of naturals

`natDecAux` is fuel-structured so that it evaluates by kernel reduction;
`natDecRepr (n)` uses fuel `n + 1`, which is always sufficient since the
argument shrinks by a factor of ten each step. -/

def natDecAux : Nat → Nat → List Char
  | 0, _ => []
  | fuel + 1, n =>
    if n < 10 then [digitChar n]
    else natDecAux fuel (n / 10) ++ [digitChar (n % 10)]

/-- Decimal digit string of a natural number, most significant digit first. -/
def natDecRepr (n : Nat) : List Char := natDecAux (n + 1) n

/-- Numeric value of a list of decimal digit characters, as Go's mantissa
accumulation computes it. -/
def digitsVal (ds : List Char) : Nat := ds.foldl (fun a c => 10 * a + digVal c) 0

/-! ### Binary logarithm with fuel (kernel-computable) -/

def log2F : Nat → Nat → Nat
  | 0, _ => 0
  | fuel + 1, n => if 2 ≤ n then log2F fuel (n / 2) + 1 else 0

/-- Floor of the base-two logarithm of the positive fraction `n / d`,
as an integer (may be negative). -/
def flog2 (n d : Nat) : Int :=
  let c : Int := (log2F n n : Int) - (log2F d d : Int)
  if (if 0 ≤ c then n < d * 2 ^ c.toNat else n * 2 ^ (-c).toNat < d)
  then c - 1 else c

/-! ### Round to nearest, ties to even -/

/-- Round the fraction `n / d` (with `d > 0`) to the nearest natural number,
ties going to the even neighbour. -/
def rneNatFrac (n d : Nat) : Nat :=
  if 2 * (n % d) < d then n / d
  else if d < 2 * (n % d) then n / d + 1
  else if (n / d) % 2 = 0 then n / d else n / d + 1

/-! ### The IEEE-754 binary64 model

A finite double is `(neg, m, e)` with magnitude `m * 2^e`, where a
well-formed value has `m ≤ 2^53` and `-1074 ≤ e`.  `roundFrac` implements
round-to-nearest-even of an exact positive fraction into this form,
returning `none` on overflow (magnitude at least `2^1024`), which is the
case where Go's `strconv.ParseFloat` reports `ErrRange`. -/

inductive GoFloat where
  | nan : GoFloat
  | inf (neg : Bool) : GoFloat
  | finite (neg : Bool) (m : Nat) (e : Int) : GoFloat
deriving DecidableEq

/-- Whether `m * 2^e` is at least `2^1024`, computed on naturals. -/
def pow2ge1024 (m : Nat) (e : Int) : Bool :=
  if 0 ≤ e then 2 ^ 1024 ≤ m * 2 ^ e.toNat
  else 2 ^ (1024 + (-e).toNat) ≤ m

/-- The binary exponent at which a positive fraction `n / d` is rounded:
`floor (log2 (n / d)) - 52`, clamped below at the subnormal exponent. -/
def roundE (n d : Nat) : Int := max (-1074) (flog2 n d - 52)

/-- The fraction `(n / d) / 2 ^ roundE`, as a numerator-denominator pair. -/
def roundP (n d : Nat) : Nat × Nat :=
  if 0 ≤ roundE n d then (n, d * 2 ^ (roundE n d).toNat)
  else (n * 2 ^ (-(roundE n d)).toNat, d)

/-- The rounded mantissa of `n / d`. -/
def roundM (n d : Nat) : Nat := rneNatFrac (roundP n d).1 (roundP n d).2

/-- Round the exact nonnegative fraction `n / d` (`d > 0`) to the nearest
binary64 magnitude; `none` models overflow to infinity (range error). -/
def roundFrac (n d : Nat) : Option (Nat × Int) :=
  if n = 0 then some (0, 0)
  else if pow2ge1024 (roundM n d) (roundE n d) then none
  else some (roundM n d, roundE n d)

/-! ### Go `strconv.ParseFloat` syntax (readFloat and special values) -/

/-- Mantissa scanner state: accumulated digits value, count of digits after
the decimal point, whether a point was seen, whether any digit was seen,
and whether an underscore was seen. -/
structure MantAcc where
  mant : Nat
  frac : Nat
  sawdot : Bool
  sawdig : Bool
  und : Bool
deriving DecidableEq

def mantAcc0 : MantAcc := ⟨0, 0, false, false, false⟩

/-- The digit/point/underscore scanning loop of Go's `readFloat`,
parameterized by base and digit predicate. -/
def readMant (base : Nat) (isD : Char → Bool) (dv : Char → Nat) :
    List Char → MantAcc → MantAcc × List Char
  | [], a => (a, [])
  | c :: cs, a =>
    if c = '_' then readMant base isD dv cs { a with und := true }
    else if c = '.' then
      if a.sawdot then (a, c :: cs)
      else readMant base isD dv cs { a with sawdot := true }
    else if isD c then
      readMant base isD dv cs
        { a with mant := base * a.mant + dv c, sawdig := true,
                 frac := if a.sawdot then a.frac + 1 else a.frac }
    else (a, c :: cs)

/-- Exponent digit run (digits and underscores), accumulating the value.
Go caps the accumulated exponent at five digits; since a nonzero mantissa
with a capped exponent overflows (or underflows to zero) exactly as with
the exact exponent, computing the exact value is extensionally faithful. -/
def readExpRun (acc : Nat) (und : Bool) : List Char → Nat × Bool × List Char
  | [] => (acc, und, [])
  | c :: cs =>
    if c = '_' then readExpRun acc true cs
    else if isDig c then readExpRun (10 * acc + digVal c) und cs
    else (acc, und, c :: cs)

/-- The underscore-placement validation loop of Go's `strconv.underscoreOK`.
`saw` is the class of the previous character. -/
def undOKLoop (hex : Bool) (saw : Char) : List Char → Bool
  | [] => decide (saw ≠ '_')
  | c :: cs =>
    if isDig c || (hex && isHexLetter c) then undOKLoop hex '0' cs
    else if c = '_' then
      if saw ≠ '0' then false else undOKLoop hex '_' cs
    else if saw = '_' then false
    else undOKLoop hex '!' cs

/-- Go `strconv.underscoreOK` on the full accepted text (optional sign,
optional base literal, then the number proper). -/
def underscoreOK (cs : List Char) : Bool :=
  let cs1 := match cs with
    | c :: r => if c = '-' || c = '+' then r else cs
    | [] => cs
  match cs1 with
  | c0 :: c1 :: r =>
    if c0 = '0' && (c1 = 'b' || c1 = 'B' || c1 = 'o' || c1 = 'O' || c1 = 'x' || c1 = 'X')
    then undOKLoop (c1 = 'x' || c1 = 'X') '0' r
    else undOKLoop false '^' cs1
  | _ => undOKLoop false '^' cs1

/-- Numeric value as scanned: a decimal mantissa with a power-of-ten
exponent, or a hexadecimal mantissa with a power-of-two exponent. -/
inductive NumVal where
  | dec (mant : Nat) (z : Int) : NumVal
  | hex (mant : Nat) (z : Int) : NumVal
deriving DecidableEq

/-- Optional exponent part: expects `marker` (in either case given by
`markerU`), then an optional sign, then a digit-led run.  Returns `none`
for a malformed exponent, `some` with the signed exponent otherwise. -/
def readExpPart (marker markerU : Char) : List Char → Option (Int × Bool × List Char)
  | [] => some (0, false, [])
  | c :: cs =>
    if c = marker || c = markerU then
      let (esign, cs2) : Int × List Char :=
        match cs with
        | d :: ds => if d = '+' then (1, ds) else if d = '-' then (-1, ds) else (1, cs)
        | [] => (1, [])
      match cs2 with
      | d :: _ =>
        if isDig d then
          let (ev, u, rest) := readExpRun 0 false cs2
          some (esign * (ev : Int), u, rest)
        else none
      | [] => none
    else some (0, false, c :: cs)

/-- The decimal branch of Go's `readFloat` body: mantissa, then an
optional well-formed exponent, then nothing. -/
def readFloatBodyDec (cs : List Char) : Option NumVal :=
  let (a, r1) := readMant 10 isDig digVal cs mantAcc0
  if a.sawdig then
    match readExpPart 'e' 'E' r1 with
    | none => none
    | some (e, _, rest) =>
      if rest = [] then some (.dec a.mant (e - (a.frac : Int)))
      else none
  else none

/-- The body of Go's `readFloat` on the sign-stripped text, producing the
scanned value; `none` models `ok = false` (a syntax error).  The result is
accepted only when the whole text is consumed.  A `0x`/`0X` leader selects
the hexadecimal branch, which requires a `p` exponent. -/
def readFloatBody (cs : List Char) : Option NumVal :=
  match cs with
  | c0 :: c1 :: r =>
    if c0 = '0' && (c1 = 'x' || c1 = 'X') then
      let (a, r1) := readMant 16 isHexDig hexVal r mantAcc0
      if a.sawdig then
        match r1 with
        | p :: cs2 =>
          if p = 'p' || p = 'P' then
            match readExpPart 'p' 'P' (p :: cs2) with
            | none => none
            | some (e, _, rest) =>
              if rest = [] then some (.hex a.mant (e - 4 * (a.frac : Int)))
              else none
          else none
        | [] => none
      else none
    else
      readFloatBodyDec cs
  | _ => readFloatBodyDec cs

/-- Whether an underscore occurs anywhere in the text. -/
def hasUnd (cs : List Char) : Bool := cs.contains '_'

/-- Go `readFloat` on the full text: optional sign, the number body, and
underscore validation when underscores are present. -/
def parseNumeric (cs : List Char) : Option (Bool × NumVal) :=
  let (neg, cs1) : Bool × List Char :=
    match cs with
    | c :: r => if c = '+' then (false, r) else if c = '-' then (true, r) else (false, cs)
    | [] => (false, [])
  match readFloatBody cs1 with
  | none => none
  | some nv =>
    if hasUnd cs && !underscoreOK cs then none else some (neg, nv)

/-- Case-insensitive match of `cs` against lowercase `inf`. -/
def isInfList (cs : List Char) : Bool :=
  match cs with
  | [a, b, c] => (a = 'i' || a = 'I') && (b = 'n' || b = 'N') && (c = 'f' || c = 'F')
  | _ => false

/-- Case-insensitive match of `cs` against lowercase `infinity`. -/
def isInfinityList (cs : List Char) : Bool :=
  match cs with
  | [a, b, c, d, e, f, g, h] =>
    (a = 'i' || a = 'I') && (b = 'n' || b = 'N') && (c = 'f' || c = 'F') &&
    (d = 'i' || d = 'I') && (e = 'n' || e = 'N') && (f = 'i' || f = 'I') &&
    (g = 't' || g = 'T') && (h = 'y' || h = 'Y')
  | _ => false

/-- Case-insensitive match of `cs` against lowercase `nan`. -/
def isNanList (cs : List Char) : Bool :=
  match cs with
  | [a, b, c] => (a = 'n' || a = 'N') && (b = 'a' || b = 'A') && (c = 'n' || c = 'N')
  | _ => false

/-- Go `strconv.special`, restricted to consuming the whole input (a
partial match makes the overall `ParseFloat` fail anyway): optional sign
followed by `inf`/`infinity` (any case), or unsigned `nan` (any case). -/
def parseSpecial (cs : List Char) : Option GoFloat :=
  match cs with
  | [] => none
  | c :: rest =>
    if c = '+' then
      if isInfList rest || isInfinityList rest then some (.inf false) else none
    else if c = '-' then
      if isInfList rest || isInfinityList rest then some (.inf true) else none
    else if isInfList cs || isInfinityList cs then some (.inf false)
    else if isNanList cs then some (.nan)
    else none

/-- Exact value of a scanned number as a fraction `(numerator, denominator)`. -/
def fracOfNumVal : NumVal → Nat × Nat
  | .dec m z => if 0 ≤ z then (m * 10 ^ z.toNat, 1) else (m, 10 ^ (-z).toNat)
  | .hex m z => if 0 ≤ z then (m * 2 ^ z.toNat, 1) else (m, 2 ^ (-z).toNat)

/-- Go `strconv.ParseFloat (s, 64)` restricted to the `err == nil` outcome:
`some f` when parsing succeeds without a range error, `none` when the
syntax is invalid or the value overflows (Go then reports `ErrRange`,
which `formatTradeID` treats as failure).  Underflow to zero carries no
error in Go and yields a zero here via rounding. -/
def goParseFloat (s : String) : Option GoFloat :=
  match parseSpecial s.toList with
  | some f => some f
  | none =>
    match parseNumeric s.toList with
    | none => none
    | some (neg, nv) =>
      let p := fracOfNumVal nv
      match roundFrac p.1 p.2 with
      | none => none
      | some (m, e) => some (.finite neg m e)

/-! ### Go `fmt.Sprintf "%.0f"` -/

/-- The integer printed by `%.0f` for a finite double of magnitude
`m * 2^e`: the exact magnitude rounded to the nearest integer, ties to
even, as Go's fixed-precision decimal conversion rounds. -/
def rneOfFin (m : Nat) (e : Int) : Nat :=
  if 0 ≤ e then m * 2 ^ e.toNat else rneNatFrac m (2 ^ (-e).toNat)

/-- Go `fmt.Sprintf ("%.0f", f)`. -/
def sprintF0 : GoFloat → String
  | .nan => "NaN"
  | .inf neg => if neg then "-Inf" else "+Inf"
  | .finite neg m e =>
    (if neg then "-" else "") ++ String.mk (natDecRepr (rneOfFin m e))

/-- The Go function `formatTradeID`. -/
def formatTradeID (tradeID : String) : String :=
  if tradeID = "" then ""
  else
    match goParseFloat tradeID with
    | some f => sprintF0 f
    | none => tradeID

/-! ### Go `time.Parse` with layout `2006/01/02 15:04:05`

The layout's numeric fields: `2006` takes exactly four digits; `01`, `02`,
`04`, `05` (zero-padded month, day, minute, second) take exactly two
digits; `15` (hour) takes one or two digits; the whole input must be
consumed.  Month, hour, minute and second are range-checked during
parsing, and the day is checked against the month length (with Gregorian
leap years) at the end.  Two further leniencies of Go's parser are
modelled: a space in the layout matches a run of one or more input spaces
(`skip` trims with `cutspace` on both sides), and a comma or period
followed by at least one digit directly after the seconds field is
consumed as a fractional second even though the layout has no fractional
field (the special case in `parse` for `stdSecond`/`stdZeroSecond`); with
no fractional field in the output layout the fraction is discarded. -/

/-- Go's `getnum`: one numeric field; `fixed` requires exactly two digits,
otherwise one digit is taken, or two when the second character is a digit. -/
def getnum (fixed : Bool) : List Char → Option (Nat × List Char)
  | [] => none
  | [c] => if isDig c && !fixed then some (digVal c, []) else none
  | c1 :: c2 :: rest =>
    if isDig c1 then
      if isDig c2 then some (10 * digVal c1 + digVal c2, rest)
      else if fixed then none
      else some (digVal c1, c2 :: rest)
    else none

/-- Gregorian leap-year rule, as Go's `isLeap`. -/
def isLeap (y : Nat) : Bool := y % 4 = 0 && (y % 100 ≠ 0 || y % 400 = 0)

/-- Days in a month, as Go's `daysIn`. -/
def daysIn (mo y : Nat) : Nat :=
  if mo = 2 then (if isLeap y then 29 else 28)
  else if mo = 4 || mo = 6 || mo = 9 || mo = 11 then 30
  else 31

/-- The six clock fields produced by a successful parse. -/
structure TimeParts where
  y : Nat
  mo : Nat
  d : Nat
  h : Nat
  mi : Nat
  s : Nat
deriving DecidableEq

/-- Consume one expected literal character. -/
def expectChar (c : Char) : List Char → Option (List Char)
  | [] => none
  | x :: r => if x = c then some r else none

/-- Go's `cutspace`: drop the run of leading spaces. -/
def cutspace : List Char → List Char
  | c :: r => if c = ' ' then cutspace r else c :: r
  | [] => []

/-- Go's `skip` applied to the layout prefix `" "`: a non-empty input must
start with a space, and then the leading space runs of layout and input are
both cut; an empty input passes `skip` (and fails at the following numeric
field, exactly as in Go). -/
def skipSpace : List Char → Option (List Char)
  | [] => some []
  | c :: r => if c = ' ' then some (cutspace (c :: r)) else none

/-- Drop the run of leading digits (Go's
`for ; n < len(value) && isDigit(value, n); n++` counting loop, applied as
`value = value[n:]`). -/
def dropDigits : List Char → List Char
  | c :: r => if isDig c then dropDigits r else c :: r
  | [] => []

/-- The fractional-second special case of Go's `parse` after
`stdSecond`/`stdZeroSecond`: when at least two characters remain, the
first is a comma or period and the second a digit, the separator and the
whole digit run are consumed (the value always parses via
`parseNanoseconds` and, with no fractional field in the layout, only sets
the discarded `nsec`); otherwise the input is left untouched. -/
def dropFrac : List Char → List Char
  | c :: d :: rest =>
    if (c = '.' || c = ',') && isDig d then dropDigits rest
    else c :: d :: rest
  | r => r

/-- Go `time.Parse ("2006/01/02 15:04:05", s)`, as the parsed fields;
`none` is a parse error (in Go: a non-nil error, logged as a warning). -/
def parseTs (s : String) : Option TimeParts :=
  match s.toList with
  | y1 :: y2 :: y3 :: y4 :: rest =>
    if isDig y1 && isDig y2 && isDig y3 && isDig y4 then
      let y := 1000 * digVal y1 + 100 * digVal y2 + 10 * digVal y3 + digVal y4
      match expectChar '/' rest with
      | none => none
      | some r1 =>
      match getnum true r1 with
      | none => none
      | some (mo, r2) =>
      if 1 ≤ mo && mo ≤ 12 then
        match expectChar '/' r2 with
        | none => none
        | some r3 =>
        match getnum true r3 with
        | none => none
        | some (d, r4) =>
        match skipSpace r4 with
        | none => none
        | some r5 =>
        match getnum false r5 with
        | none => none
        | some (h, r6) =>
        if h ≤ 23 then
          match expectChar ':' r6 with
          | none => none
          | some r7 =>
          match getnum true r7 with
          | none => none
          | some (mi, r8) =>
          if mi ≤ 59 then
            match expectChar ':' r8 with
            | none => none
            | some r9 =>
            match getnum true r9 with
            | none => none
            | some (sec, r10) =>
            if sec ≤ 59 && dropFrac r10 = [] && 1 ≤ d && d ≤ daysIn mo y then
              some ⟨y, mo, d, h, mi, sec⟩
            else none
          else none
        else none
      else none
    else none
  | _ => none

/-- Two-digit zero-padded rendering (all rendered fields are below 100). -/
def pad2 (n : Nat) : List Char := [digitChar (n / 10 % 10), digitChar (n % 10)]

/-- Four-digit zero-padded rendering (the year is below 10000). -/
def pad4 (n : Nat) : List Char :=
  [digitChar (n / 1000 % 10), digitChar (n / 100 % 10),
   digitChar (n / 10 % 10), digitChar (n % 10)]

/-- Go `Format ("2006-01-02 15:04:05")` applied to the parsed fields. -/
def renderTs (t : TimeParts) : String :=
  String.mk (pad4 t.y ++ '-' :: pad2 t.mo ++ '-' :: pad2 t.d ++
             ' ' :: pad2 t.h ++ ':' :: pad2 t.mi ++ ':' :: pad2 t.s)

/-- The Go function `convertTimestamp`: reformat on success, return the
input unchanged on a parse error (warning only). -/
def convertTimestamp (timestamp : String) : String :=
  match parseTs timestamp with
  | none => timestamp
  | some t => renderTs t

/-! ### The record types and the parser -/

/-- Canonical input record (Go struct `K33Record`). -/
structure K33Record where
  TypeStatus : String
  TradeID : String
  Side : String
  Amount : String
  TradeStatus : String
  Asset : String
  Timestamp : String
  DepositTxhash : String
  WithdrawalTxhash : String
deriving DecidableEq

/-- The Go zero value of `K33Record` (all fields empty). -/
def emptyK33 : K33Record := ⟨"", "", "", "", "", "", "", "", ""⟩

/-- Buffered pair of trade legs (Go struct `TradePair`); `none` models a
nil leg pointer. -/
structure TradePair where
  TradeID : String
  Timestamp : String
  BuyLeg : Option K33Record
  SellLeg : Option K33Record
deriving DecidableEq

/-- Output record (Go struct `KoinlyRecord`). -/
structure KoinlyRecord where
  Date : String
  SentAmount : String
  SentCurrency : String
  ReceivedAmount : String
  ReceivedCurrency : String
  FeeAmount : String
  FeeCurrency : String
  NetWorthAmount : String
  NetWorthCurrency : String
  Label : String
  Description : String
  TxHash : String
deriving DecidableEq

/-- The Go zero value of `KoinlyRecord`. -/
def emptyKoinly : KoinlyRecord := ⟨"", "", "", "", "", "", "", "", "", "", "", ""⟩

/-- The converter's trade store (Go map `map[string]*TradePair`), as an
association list.  All operations keep keys distinct; a Go map has no
observable order, and no theorem below depends on the order. -/
abbrev Converter := List (String × TradePair)

/-- Map lookup. -/
def lookupTrade : Converter → String → Option TradePair
  | [], _ => none
  | (key, t) :: rest, id => if key = id then some t else lookupTrade rest id

/-- Map insert-or-replace. -/
def setTrade : Converter → String → TradePair → Converter
  | [], id, t => [(id, t)]
  | (key, u) :: rest, id, t =>
    if key = id then (id, t) :: rest else (key, u) :: setTrade rest id t

/-- Map delete. -/
def eraseTrade : Converter → String → Converter
  | [], _ => []
  | (key, t) :: rest, id =>
    if key = id then eraseTrade rest id else (key, t) :: eraseTrade rest id

/-- Header-cell cleanup from `parseK33Record`:
`strings.TrimSpace` after `strings.TrimPrefix` with the BOM character U+FEFF. -/
def cleanCol (col : String) : String := goTrimSpace (stripLeading col "\uFEFF")

/-- One assignment step of `parseK33Record`'s switch on a cleaned header
name; unrecognized names leave the record unchanged. -/
def applyCol (k : K33Record) (col v : String) : K33Record :=
  if col = "Type/Status" then { k with TypeStatus := v }
  else if col = "TradeID" then { k with TradeID := formatTradeID v }
  else if col = "Side" then { k with Side := v }
  else if col = "Amount" then { k with Amount := v }
  else if col = "Trade Status" then { k with TradeStatus := v }
  else if col = "Asset" then { k with Asset := v }
  else if col = "Timestamp (UTC)" then { k with Timestamp := v }
  else if col = "DepositTxhash" then { k with DepositTxhash := v }
  else if col = "WithdrawalTxhash" then { k with WithdrawalTxhash := v }
  else k

/-- The Go function `parseK33Record`.  Go iterates header positions and
skips positions at or beyond the row's length; zipping header with row
performs exactly that truncation (extra row values find no header and are
likewise ignored). -/
def parseK33Record (header record : List String) : K33Record :=
  (header.zip record).foldl (fun k cv => applyCol k (cleanCol cv.1) cv.2) emptyK33

/-! ### Record constructors and trade pairing -/

/-- The Go method `createDepositRecord`. -/
def createDepositRecord (k : K33Record) (timestamp : String) : KoinlyRecord :=
  let amount := stripLeading k.Amount "-"
  { emptyKoinly with
      Date := timestamp
      ReceivedAmount := amount
      ReceivedCurrency := k.Asset
      Description := "Deposit (K33)"
      TxHash := k.DepositTxhash }

/-- The Go method `createWithdrawalRecord`. -/
def createWithdrawalRecord (k : K33Record) (timestamp : String) : KoinlyRecord :=
  let amount := stripLeading k.Amount "-"
  { emptyKoinly with
      Date := timestamp
      SentAmount := amount
      SentCurrency := k.Asset
      Description := "Withdrawal (K33)"
      TxHash := k.WithdrawalTxhash }

/-- The Go method `createTradeRecord`.  Go dereferences both leg pointers;
it is only called when both are non-nil, so the `getD` defaults are never
reached from the call site. -/
def createTradeRecord (trade : TradePair) : KoinlyRecord :=
  let buy := trade.BuyLeg.getD emptyK33
  let sell := trade.SellLeg.getD emptyK33
  { emptyKoinly with
      Date := trade.Timestamp
      SentAmount := stripLeading sell.Amount "-"
      SentCurrency := sell.Asset
      ReceivedAmount := stripLeading buy.Amount "-"
      ReceivedCurrency := buy.Asset
      Description := "Trade (K33) - " ++ trade.TradeID }

/-- The Go method `processTrade`.  Go creates and inserts a fresh pair on a
missing key, mutates the looked-up pair's leg slot through the map's
pointer, and deletes the key when both legs are present; the net effect on
the map is captured by `setTrade` (buffering) or `eraseTrade` (completion,
where insert-then-delete of a fresh key equals no insertion at all). -/
def processTrade (c : Converter) (k : K33Record) (timestamp : String) :
    Converter × List KoinlyRecord :=
  if k.TradeID = "" then (c, [])
  else
    let trade0 := match lookupTrade c k.TradeID with
      | some t => t
      | none => { TradeID := k.TradeID, Timestamp := timestamp,
                  BuyLeg := none, SellLeg := none }
    let trade := if k.Side = "Buy" then { trade0 with BuyLeg := some k }
                 else if k.Side = "Sell" then { trade0 with SellLeg := some k }
                 else trade0
    if trade.BuyLeg.isSome && trade.SellLeg.isSome then
      (eraseTrade c k.TradeID, [createTradeRecord trade])
    else
      (setTrade c k.TradeID trade, [])

/-- The Go method `processK33Record`: drop on missing required fields,
then first-match dispatch on the type/status label. -/
def processK33Record (c : Converter) (k : K33Record) :
    Converter × List KoinlyRecord :=
  if k.TypeStatus = "" || k.Timestamp = "" then (c, [])
  else
    let timestamp := convertTimestamp k.Timestamp
    if strContains k.TypeStatus "Deposit" then (c, [createDepositRecord k timestamp])
    else if strContains k.TypeStatus "Withdrawal" then (c, [createWithdrawalRecord k timestamp])
    else if k.TypeStatus = "Trade" then processTrade c k timestamp
    else (c, [])

/-! ### The pipeline drivers

The `csv.Reader` feeding `Process`/`ProcessDryRun` is modelled as a list
of read results: `.ok row` for a successfully read row, `.error e` for a
read error, end of list for `io.EOF`.  Writing through the buffered
`csv.Writer` (whose deferred flush error Go ignores) and printing to
standard output cannot fail in the model, so the only error sources are
the read sites, exactly as in the Go functions. -/

abbrev ReadEvent := Except String (List String)

/-- The record loop of `Process`: skip rejected rows, map the rest,
accumulate the produced records in arrival order, fail on a read error. -/
def processLoop (header : List String) (c : Converter) :
    List ReadEvent → Except String (Converter × List KoinlyRecord)
  | [] => .ok (c, [])
  | .error e :: _ => .error ("reading record: " ++ e)
  | .ok row :: rest =>
    let k := parseK33Record header row
    if k.TradeStatus = "Reject" then processLoop header c rest
    else
      let s := processK33Record c k
      match processLoop header s.1 rest with
      | .error e => .error e
      | .ok (cF, more) => .ok (cF, s.2 ++ more)

/-- The trade IDs Go logs as `Warning: Unpaired trade %s` after the loop:
one per stored pair that still has at least one leg. -/
def unpairedIDs (c : Converter) : List String :=
  (c.filter fun p => p.2.BuyLeg.isSome || p.2.SellLeg.isSome).map fun p => p.2.TradeID

/-- Result of a successful `Process` run: the data rows written (after the
fixed Koinly header row) and the unpaired-trade warnings logged. -/
structure ProcessOut where
  records : List KoinlyRecord
  warnings : List String
deriving DecidableEq

/-- The Go method `Process`.  A `.ok` value is Go's nil return. -/
def Process (c : Converter) (events : List ReadEvent) : Except String ProcessOut :=
  match events with
  | [] => .error ("reading header: EOF")
  | .error e :: _ => .error ("reading header: " ++ e)
  | .ok header :: rest =>
    match processLoop header c rest with
    | .error e => .error e
    | .ok (cF, recs) => .ok ⟨recs, unpairedIDs cF⟩

/-- One line printed by the dry run's loop (the two constant banner lines
printed before the loop are elided): either the `SKIPPED (Rejected)` line
for a rejected row, or the rendering of one mapped record. -/
inductive DryLine where
  | skipped (typeStatus : String)
  | record (r : KoinlyRecord)
deriving DecidableEq

/-- The record loop of `ProcessDryRun`. -/
def dryLoop (header : List String) (c : Converter) :
    List ReadEvent → Except String (List DryLine)
  | [] => .ok []
  | .error e :: _ => .error ("reading record: " ++ e)
  | .ok row :: rest =>
    let k := parseK33Record header row
    if k.TradeStatus = "Reject" then
      match dryLoop header c rest with
      | .error e => .error e
      | .ok ls => .ok (.skipped k.TypeStatus :: ls)
    else
      let s := processK33Record c k
      match dryLoop header s.1 rest with
      | .error e => .error e
      | .ok ls => .ok (s.2.map .record ++ ls)

/-- The Go method `ProcessDryRun`. -/
def ProcessDryRun (c : Converter) (events : List ReadEvent) :
    Except String (List DryLine) :=
  match events with
  | [] => .error ("reading header: EOF")
  | .error e :: _ => .error ("reading header: " ++ e)
  | .ok header :: rest => dryLoop header c rest

/-- The record component of a dry-run line, for relating the dry run's
output to `Process`'s records. -/
def dryRecOf : DryLine → Option KoinlyRecord
  | .skipped _ => none
  | .record r => some r

/-! ### Specification-side definitions

These follow the specification's wording (not the code) and exist to be
compared with the source-derived definitions above. -/

/-- Whether a string exactly matches the pattern `YYYY/MM/DD HH:MM:SS`
(24-hour, zero-padded, denoting a valid instant), per the specification's
description of the timestamp normalizer's expected input. -/
def matchesK33Pattern (s : String) : Bool :=
  match s.toList with
  | [y1, y2, y3, y4, a, m1, m2, b, d1, d2, sp, h1, h2, e, n1, n2, f, s1, s2] =>
    a = '/' && b = '/' && sp = ' ' && e = ':' && f = ':' &&
    isDig y1 && isDig y2 && isDig y3 && isDig y4 &&
    isDig m1 && isDig m2 && isDig d1 && isDig d2 &&
    isDig h1 && isDig h2 && isDig n1 && isDig n2 && isDig s1 && isDig s2 &&
    (let yr := 1000 * digVal y1 + 100 * digVal y2 + 10 * digVal y3 + digVal y4
     let mo := 10 * digVal m1 + digVal m2
     let dy := 10 * digVal d1 + digVal d2
     decide (1 ≤ mo) && decide (mo ≤ 12) && decide (1 ≤ dy) &&
     decide (dy ≤ daysIn mo yr) &&
     decide (10 * digVal h1 + digVal h2 ≤ 23) &&
     decide (10 * digVal n1 + digVal n2 ≤ 59) &&
     decide (10 * digVal s1 + digVal s2 ≤ 59))
  | _ => false

/-- Replace every slash with a dash (the specification's description of the
timestamp normalizer's successful output: the input with its two slashes
replaced by dashes). -/
def slashToDash (s : String) : String :=
  String.mk (s.toList.map fun c => if c = '/' then '-' else c)

/-- Exact rational value of a finite double of the model. -/
def finVal (m : Nat) (e : Int) : ℚ := (m : ℚ) * (2 : ℚ) ^ e

/-- The store after a sequence of `processK33Record` calls on a fresh
converter (Go `New()` makes the empty map). -/
def runRecords (ks : List K33Record) : Converter :=
  ks.foldl (fun c k => (processK33Record c k).1) []

/-! ### Theorems -/

theorem strContains_trade_dep : strContains "Trade" "Deposit" = false := by decide

theorem strContains_trade_wd : strContains "Trade" "Withdrawal" = false := by decide

theorem lookupTrade_setTrade_self (c : Converter) (id : String) (t : TradePair) :
    lookupTrade (setTrade c id t) id = some t := by
  induction c with
  | nil => simp [setTrade, lookupTrade]
  | cons p rest ih =>
    obtain ⟨key, u⟩ := p
    by_cases h : key = id
    · simp [setTrade, h, lookupTrade]
    · simp [setTrade, h, lookupTrade, ih]

theorem lookupTrade_eraseTrade_self (c : Converter) (id : String) :
    lookupTrade (eraseTrade c id) id = none := by
  induction c with
  | nil => simp [eraseTrade, lookupTrade]
  | cons p rest ih =>
    obtain ⟨key, u⟩ := p
    by_cases h : key = id
    · simp [eraseTrade, h, ih]
    · simp [eraseTrade, h, lookupTrade, ih]

/-- C8: a record whose type/status label is exactly `Trade` but whose trade
ID is empty produces no output records and leaves the trade pairing store
completely unchanged. -/
theorem trade_empty_id_noop (c : Converter) (k : K33Record)
    (hts : k.TypeStatus = "Trade") (hid : k.TradeID = "") :
    processK33Record c k = (c, []) := by
  unfold processK33Record
  rw [hts]
  by_cases h : k.Timestamp = ""
  · simp [h]
  · simp [h, processTrade, hid, strContains_trade_dep, strContains_trade_wd]

/-- C1: two Trade records with the same non-empty trade ID, one Buy and one
Sell, processed in either arrival order on a converter with no pending pair
for that ID, produce no output on the first leg and exactly one combined
record on the second leg: sent = the sell leg's amount with a leading dash
removed and its asset, received = the buy leg's likewise, date = the
normalized timestamp captured from the first leg seen, description =
`Trade (K33) - ` followed by the trade ID; the pair is removed from the
store. -/
theorem trade_pairing (c : Converter) (k1 k2 : K33Record)
    (h1 : k1.TypeStatus = "Trade") (h2 : k2.TypeStatus = "Trade")
    (hid : k2.TradeID = k1.TradeID) (hne : k1.TradeID ≠ "")
    (ht1 : k1.Timestamp ≠ "") (ht2 : k2.Timestamp ≠ "")
    (hfresh : lookupTrade c k1.TradeID = none)
    (hsides : (k1.Side = "Buy" ∧ k2.Side = "Sell") ∨ (k1.Side = "Sell" ∧ k2.Side = "Buy")) :
    (processK33Record c k1).2 = [] ∧
    (processK33Record (processK33Record c k1).1 k2).2 =
      [{ emptyKoinly with
          Date := convertTimestamp k1.Timestamp,
          SentAmount := stripLeading (if k1.Side = "Sell" then k1 else k2).Amount "-",
          SentCurrency := (if k1.Side = "Sell" then k1 else k2).Asset,
          ReceivedAmount := stripLeading (if k1.Side = "Buy" then k1 else k2).Amount "-",
          ReceivedCurrency := (if k1.Side = "Buy" then k1 else k2).Asset,
          Description := "Trade (K33) - " ++ k1.TradeID }] ∧
    lookupTrade (processK33Record (processK33Record c k1).1 k2).1 k1.TradeID = none := by
  rcases hsides with ⟨hs1, hs2⟩ | ⟨hs1, hs2⟩
  · have e1 : processK33Record c k1 =
        (setTrade c k1.TradeID
          ⟨k1.TradeID, convertTimestamp k1.Timestamp, some k1, none⟩, []) := by
      unfold processK33Record processTrade
      rw [h1]
      simp [ht1, hne, hfresh, hs1, strContains_trade_dep, strContains_trade_wd]
    have e2 : processK33Record (processK33Record c k1).1 k2 =
        (eraseTrade (setTrade c k1.TradeID
            ⟨k1.TradeID, convertTimestamp k1.Timestamp, some k1, none⟩) k1.TradeID,
         [{ emptyKoinly with
              Date := convertTimestamp k1.Timestamp,
              SentAmount := stripLeading k2.Amount "-",
              SentCurrency := k2.Asset,
              ReceivedAmount := stripLeading k1.Amount "-",
              ReceivedCurrency := k1.Asset,
              Description := "Trade (K33) - " ++ k1.TradeID }]) := by
      rw [e1]
      unfold processK33Record processTrade
      rw [h2, hid]
      simp [ht2, hne, hs2, lookupTrade_setTrade_self,
            strContains_trade_dep, strContains_trade_wd, createTradeRecord]
    refine ⟨by rw [e1], ?_, ?_⟩
    · rw [e2]; simp [hs1, hs2]
    · rw [e2]; exact lookupTrade_eraseTrade_self _ _
  · have e1 : processK33Record c k1 =
        (setTrade c k1.TradeID
          ⟨k1.TradeID, convertTimestamp k1.Timestamp, none, some k1⟩, []) := by
      unfold processK33Record processTrade
      rw [h1]
      simp [ht1, hne, hfresh, hs1, strContains_trade_dep, strContains_trade_wd]
    have e2 : processK33Record (processK33Record c k1).1 k2 =
        (eraseTrade (setTrade c k1.TradeID
            ⟨k1.TradeID, convertTimestamp k1.Timestamp, none, some k1⟩) k1.TradeID,
         [{ emptyKoinly with
              Date := convertTimestamp k1.Timestamp,
              SentAmount := stripLeading k1.Amount "-",
              SentCurrency := k1.Asset,
              ReceivedAmount := stripLeading k2.Amount "-",
              ReceivedCurrency := k2.Asset,
              Description := "Trade (K33) - " ++ k1.TradeID }]) := by
      rw [e1]
      unfold processK33Record processTrade
      rw [h2, hid]
      simp [ht2, hne, hs2, lookupTrade_setTrade_self,
            strContains_trade_dep, strContains_trade_wd, createTradeRecord]
    refine ⟨by rw [e1], ?_, ?_⟩
    · rw [e2]; simp [hs1, hs2]
    · rw [e2]; exact lookupTrade_eraseTrade_self _ _

theorem processK33_drop (c : Converter) (k : K33Record)
    (h : k.TypeStatus = "" ∨ k.Timestamp = "") : processK33Record c k = (c, []) := by
  unfold processK33Record
  rcases h with h | h <;> simp [h]

theorem processK33_dep (c : Converter) (k : K33Record)
    (h1 : k.TypeStatus ≠ "") (h2 : k.Timestamp ≠ "")
    (hd : strContains k.TypeStatus "Deposit" = true) :
    processK33Record c k = (c, [createDepositRecord k (convertTimestamp k.Timestamp)]) := by
  unfold processK33Record
  simp [h1, h2, hd]

theorem processK33_wd (c : Converter) (k : K33Record)
    (h1 : k.TypeStatus ≠ "") (h2 : k.Timestamp ≠ "")
    (hd : strContains k.TypeStatus "Deposit" = false)
    (hw : strContains k.TypeStatus "Withdrawal" = true) :
    processK33Record c k = (c, [createWithdrawalRecord k (convertTimestamp k.Timestamp)]) := by
  unfold processK33Record
  simp [h1, h2, hd, hw]

theorem processK33_trade (c : Converter) (k : K33Record)
    (hts : k.TypeStatus = "Trade") (h2 : k.Timestamp ≠ "") :
    processK33Record c k = processTrade c k (convertTimestamp k.Timestamp) := by
  unfold processK33Record
  rw [hts]
  simp [h2, strContains_trade_dep, strContains_trade_wd]

theorem processK33_other (c : Converter) (k : K33Record)
    (h1 : k.TypeStatus ≠ "") (h2 : k.Timestamp ≠ "")
    (hd : strContains k.TypeStatus "Deposit" = false)
    (hw : strContains k.TypeStatus "Withdrawal" = false)
    (ht : k.TypeStatus ≠ "Trade") : processK33Record c k = (c, []) := by
  unfold processK33Record
  simp [h1, h2, hd, hw, ht]

/-- C2: classification is first-match-wins in this order: a record with an
empty type/status label or empty timestamp produces no output; else a label
containing `Deposit` produces exactly one record with the received
amount/currency, description `Deposit (K33)`, and the deposit hash; else a
label containing `Withdrawal` produces exactly one record with the sent
amount/currency, description `Withdrawal (K33)`, and the withdrawal hash;
else a label equal to `Trade` delegates to trade pairing; otherwise no
output. -/
theorem classifier_dispatch (c : Converter) (k : K33Record) :
    ((k.TypeStatus = "" ∨ k.Timestamp = "") → processK33Record c k = (c, [])) ∧
    (k.TypeStatus ≠ "" → k.Timestamp ≠ "" →
      strContains k.TypeStatus "Deposit" = true →
      processK33Record c k =
        (c, [{ emptyKoinly with
                Date := convertTimestamp k.Timestamp,
                ReceivedAmount := stripLeading k.Amount "-",
                ReceivedCurrency := k.Asset,
                Description := "Deposit (K33)",
                TxHash := k.DepositTxhash }])) ∧
    (k.TypeStatus ≠ "" → k.Timestamp ≠ "" →
      strContains k.TypeStatus "Deposit" = false →
      strContains k.TypeStatus "Withdrawal" = true →
      processK33Record c k =
        (c, [{ emptyKoinly with
                Date := convertTimestamp k.Timestamp,
                SentAmount := stripLeading k.Amount "-",
                SentCurrency := k.Asset,
                Description := "Withdrawal (K33)",
                TxHash := k.WithdrawalTxhash }])) ∧
    (k.TypeStatus = "Trade" → k.Timestamp ≠ "" →
      processK33Record c k = processTrade c k (convertTimestamp k.Timestamp)) ∧
    (k.TypeStatus ≠ "" → k.Timestamp ≠ "" →
      strContains k.TypeStatus "Deposit" = false →
      strContains k.TypeStatus "Withdrawal" = false →
      k.TypeStatus ≠ "Trade" → processK33Record c k = (c, [])) := by
  refine ⟨processK33_drop c k, ?_, ?_, processK33_trade c k, processK33_other c k⟩
  · intro h1 h2 hd
    rw [processK33_dep c k h1 h2 hd]
    rfl
  · intro h1 h2 hd hw
    rw [processK33_wd c k h1 h2 hd hw]
    rfl

/-- C3: a row whose trade-status field equals exactly `Reject` never
contributes anything: deleting it from the event stream leaves the whole
record loop's result (both the trade store and every output record)
unchanged, so it never reaches the classifier or the pairing store. -/
theorem reject_skipped (header : List String) (c : Converter)
    (pre post : List ReadEvent) (r : List String)
    (hrej : (parseK33Record header r).TradeStatus = "Reject") :
    processLoop header c (pre ++ .ok r :: post) = processLoop header c (pre ++ post) := by
  induction pre generalizing c with
  | nil => simp [processLoop, hrej]
  | cons ev rest ih =>
    cases ev with
    | error e => simp [processLoop]
    | ok row =>
      simp only [List.cons_append, processLoop]
      by_cases h : (parseK33Record header row).TradeStatus = "Reject"
      · simp [h, ih]
      · simp [h, ih]

theorem mem_setTrade {c : Converter} {id : String} {t : TradePair} {p : String × TradePair}
    (hp : p ∈ setTrade c id t) : p = (id, t) ∨ p ∈ c := by
  induction c with
  | nil =>
    simp only [setTrade, List.mem_singleton] at hp
    exact Or.inl hp
  | cons q rest ih =>
    obtain ⟨key, u⟩ := q
    by_cases h : key = id
    · simp only [setTrade, h, if_true, List.mem_cons] at hp
      rcases hp with h1 | h1
      · exact Or.inl h1
      · exact Or.inr (List.mem_cons_of_mem _ h1)
    · simp only [setTrade, h, if_false, List.mem_cons] at hp
      rcases hp with h1 | h1
      · exact Or.inr (by simp [h1])
      · rcases ih h1 with h2 | h2
        · exact Or.inl h2
        · exact Or.inr (List.mem_cons_of_mem _ h2)

theorem mem_eraseTrade {c : Converter} {id : String} {p : String × TradePair}
    (hp : p ∈ eraseTrade c id) : p ∈ c := by
  induction c with
  | nil =>
    simp only [eraseTrade] at hp
    exact hp
  | cons q rest ih =>
    obtain ⟨key, u⟩ := q
    by_cases h : key = id
    · simp only [eraseTrade, h, if_true] at hp
      exact List.mem_cons_of_mem _ (ih hp)
    · simp only [eraseTrade, h, if_false, List.mem_cons] at hp
      rcases hp with h1 | h1
      · simp [h1]
      · exact List.mem_cons_of_mem _ (ih h1)

theorem storeOK_finish (c : Converter) (id : String) (tr : TradePair)
    (L1 L2 : List KoinlyRecord)
    (h : ∀ p ∈ c, p.2.BuyLeg = none ∨ p.2.SellLeg = none) (p : String × TradePair)
    (hp : p ∈ (if tr.BuyLeg.isSome && tr.SellLeg.isSome then
                 (eraseTrade c id, L1) else (setTrade c id tr, L2)).1) :
    p.2.BuyLeg = none ∨ p.2.SellLeg = none := by
  split at hp
  · exact h p (mem_eraseTrade hp)
  · rename_i hboth
    rcases mem_setTrade hp with h1 | h1
    · subst h1
      cases hb : tr.BuyLeg with
      | none => exact Or.inl rfl
      | some x =>
        cases hs : tr.SellLeg with
        | none => exact Or.inr rfl
        | some y => exact absurd (by simp [hb, hs]) hboth
    · exact h p h1

theorem storeOK_processTrade (c : Converter) (k : K33Record) (ts : String)
    (h : ∀ p ∈ c, p.2.BuyLeg = none ∨ p.2.SellLeg = none) :
    ∀ p ∈ (processTrade c k ts).1, p.2.BuyLeg = none ∨ p.2.SellLeg = none := by
  intro p hp
  unfold processTrade at hp
  by_cases hid : k.TradeID = ""
  · simp only [hid, if_true] at hp
    exact h p hp
  · simp only [hid, if_false] at hp
    exact storeOK_finish c k.TradeID _ _ _ h p hp

theorem storeOK_step (c : Converter) (k : K33Record)
    (h : ∀ p ∈ c, p.2.BuyLeg = none ∨ p.2.SellLeg = none) :
    ∀ p ∈ (processK33Record c k).1, p.2.BuyLeg = none ∨ p.2.SellLeg = none := by
  intro p hp
  unfold processK33Record at hp
  split at hp
  · exact h p hp
  · split at hp
    · simp only at hp
      exact h p hp
    · split at hp
      · simp only at hp
        exact h p hp
      · split at hp
        · exact storeOK_processTrade c k _ h p hp
        · exact h p hp

/-- C10: store invariant: starting from a fresh converter, after every
completed `processK33Record` call each pair still in the store has at most
one occupied leg slot (its buy leg or its sell leg is nil); a completed
pair is always deleted within the same call. -/
theorem store_single_leg (ks : List K33Record) :
    ∀ p ∈ runRecords ks, p.2.BuyLeg = none ∨ p.2.SellLeg = none := by
  have main : ∀ (ks : List K33Record) (c : Converter),
      (∀ p ∈ c, p.2.BuyLeg = none ∨ p.2.SellLeg = none) →
      ∀ p ∈ ks.foldl (fun c k => (processK33Record c k).1) c,
        p.2.BuyLeg = none ∨ p.2.SellLeg = none := by
    intro ks
    induction ks with
    | nil => intro c hc; simpa using hc
    | cons k rest ih =>
      intro c hc
      exact ih _ (storeOK_step c k hc)
  exact main ks [] (by simp)

theorem lookupTrade_mem {c : Converter} {id : String} {t : TradePair}
    (h : lookupTrade c id = some t) : (id, t) ∈ c := by
  induction c with
  | nil => simp [lookupTrade] at h
  | cons q rest ih =>
    obtain ⟨key, u⟩ := q
    by_cases hq : key = id
    · simp only [lookupTrade, hq, if_true, Option.some.injEq] at h
      subst h; subst hq; exact List.mem_cons_self _ _
    · simp only [lookupTrade, hq, if_false] at h
      exact List.mem_cons_of_mem _ (ih h)

theorem eraseTrade_sublist (c : Converter) (id : String) :
    (eraseTrade c id).Sublist c := by
  induction c with
  | nil => simp [eraseTrade]
  | cons q rest ih =>
    obtain ⟨key, u⟩ := q
    by_cases h : key = id
    · simp only [eraseTrade, h, if_true]
      exact ih.cons _
    · simp only [eraseTrade, h, if_false]
      exact ih.cons₂ _

theorem keys_setTrade_nodup {c : Converter} {id : String} {t : TradePair}
    (h : (c.map Prod.fst).Nodup) : ((setTrade c id t).map Prod.fst).Nodup := by
  induction c with
  | nil => simp [setTrade]
  | cons q rest ih =>
    obtain ⟨key, u⟩ := q
    simp only [List.map_cons, List.nodup_cons] at h
    by_cases hq : key = id
    · simp only [setTrade, hq, if_true, List.map_cons, List.nodup_cons]
      exact ⟨hq ▸ h.1, h.2⟩
    · simp only [setTrade, hq, if_false, List.map_cons, List.nodup_cons]
      refine ⟨?_, ih h.2⟩
      intro hkey
      rcases List.mem_map.mp hkey with ⟨p, hpmem, hpeq⟩
      rcases mem_setTrade hpmem with h1 | h1
      · exact hq (by rw [← hpeq, h1])
      · exact h.1 (hpeq ▸ List.mem_map_of_mem Prod.fst h1)

/-- Store well-formedness: distinct keys, and each pair records its key as
its trade ID. -/
def StoreWF (c : Converter) : Prop :=
  (c.map Prod.fst).Nodup ∧ ∀ p ∈ c, p.2.TradeID = p.1

theorem storeWF_nil : StoreWF [] := ⟨List.nodup_nil, by simp⟩

theorem storeWF_setTrade {c : Converter} {id : String} {t : TradePair}
    (h : StoreWF c) (ht : t.TradeID = id) : StoreWF (setTrade c id t) := by
  refine ⟨keys_setTrade_nodup h.1, ?_⟩
  intro p hp
  rcases mem_setTrade hp with h1 | h1
  · rw [h1]; exact ht
  · exact h.2 p h1

theorem storeWF_eraseTrade {c : Converter} {id : String}
    (h : StoreWF c) : StoreWF (eraseTrade c id) := by
  refine ⟨h.1.sublist ((eraseTrade_sublist c id).map Prod.fst), ?_⟩
  intro p hp
  exact h.2 p (mem_eraseTrade hp)

theorem storeWF_finish (c : Converter) (id : String) (tr : TradePair)
    (L1 L2 : List KoinlyRecord) (h : StoreWF c) (ht : tr.TradeID = id) :
    StoreWF (if tr.BuyLeg.isSome && tr.SellLeg.isSome then
               (eraseTrade c id, L1) else (setTrade c id tr, L2)).1 := by
  split
  · exact storeWF_eraseTrade h
  · exact storeWF_setTrade h ht

theorem storeWF_processTrade (c : Converter) (k : K33Record) (ts : String)
    (h : StoreWF c) : StoreWF (processTrade c k ts).1 := by
  unfold processTrade
  by_cases hid : k.TradeID = ""
  · simpa [hid] using h
  · simp only [hid, if_false]
    refine storeWF_finish c k.TradeID _ _ _ h ?_
    have hbase : (match lookupTrade c k.TradeID with
        | some t => t
        | none => { TradeID := k.TradeID, Timestamp := ts,
                    BuyLeg := none, SellLeg := none } : TradePair).TradeID = k.TradeID := by
      cases hlk : lookupTrade c k.TradeID with
      | none => rfl
      | some t => exact h.2 _ (lookupTrade_mem hlk)
    by_cases hb : k.Side = "Buy"
    · simpa [hb] using hbase
    · by_cases hs : k.Side = "Sell"
      · simpa [hb, hs] using hbase
      · simpa [hb, hs] using hbase

theorem storeWF_step (c : Converter) (k : K33Record)
    (h : StoreWF c) : StoreWF (processK33Record c k).1 := by
  unfold processK33Record
  split
  · exact h
  · split
    · simpa using h
    · split
      · simpa using h
      · split
        · exact storeWF_processTrade c k _ h
        · exact h

theorem count_unpaired_zero (c : Converter) (id : String)
    (hid : ∀ p ∈ c, p.2.TradeID = p.1) (hnotin : id ∉ c.map Prod.fst) :
    (unpairedIDs c).count id = 0 := by
  induction c with
  | nil => rfl
  | cons q rest ih =>
    obtain ⟨key, u⟩ := q
    simp only [List.map_cons, List.mem_cons, not_or] at hnotin
    have hrest := ih (fun p hp => hid p (List.mem_cons_of_mem _ hp)) hnotin.2
    have hkey : u.TradeID = key := hid (key, u) (List.mem_cons_self _ _)
    unfold unpairedIDs at hrest ⊢
    by_cases hleg : (u.BuyLeg.isSome || u.SellLeg.isSome) = true
    · simp only [List.filter_cons, hleg, if_true, List.map_cons, List.count_cons, hrest, hkey]
      simp [Ne.symm hnotin.1]
    · simp only [List.filter_cons, hleg]
      simpa using hrest

theorem count_unpaired_one (c : Converter) (id : String) (t : TradePair)
    (hwf : StoreWF c) (hmem : (id, t) ∈ c)
    (hleg : (t.BuyLeg.isSome || t.SellLeg.isSome) = true) :
    (unpairedIDs c).count id = 1 := by
  induction c with
  | nil => cases hmem
  | cons q rest ih =>
    obtain ⟨key, u⟩ := q
    obtain ⟨hnd, hid⟩ := hwf
    simp only [List.map_cons, List.nodup_cons] at hnd
    rcases List.mem_cons.mp hmem with h1 | h1
    · have hkeu : key = id ∧ u = t := by
        have := Prod.mk.injEq id t key u ▸ h1
        exact ⟨(Prod.ext_iff.mp h1).1.symm, (Prod.ext_iff.mp h1).2.symm⟩
      obtain ⟨hkeq, huq⟩ := hkeu
      have hzero : (unpairedIDs rest).count id = 0 := by
        refine count_unpaired_zero rest id
          (fun p hp => hid p (List.mem_cons_of_mem _ hp)) ?_
        rw [← hkeq]; exact hnd.1
      unfold unpairedIDs
      simp only [List.filter_cons, huq, hleg, if_true, List.map_cons,
                 List.count_cons]
      unfold unpairedIDs at hzero
      rw [hzero]
      have ht2 : t.TradeID = id := by
        rw [← huq, hid (key, u) (List.mem_cons_self _ _), hkeq]
      simp [ht2]
    · have hkey : u.TradeID = key := hid (key, u) (List.mem_cons_self _ _)
      have hkne : key ≠ id := by
        intro hk
        exact hnd.1 (hk ▸ List.mem_map_of_mem Prod.fst h1)
      have hrest := ih ⟨hnd.2, fun p hp => hid p (List.mem_cons_of_mem _ hp)⟩ h1
      unfold unpairedIDs at hrest ⊢
      by_cases hlegu : (u.BuyLeg.isSome || u.SellLeg.isSome) = true
      · simp only [List.filter_cons, hlegu, if_true, List.map_cons, List.count_cons, hrest, hkey]
        simp [hkne]
      · simp only [List.filter_cons, hlegu]
        simpa using hrest

theorem processLoop_ok (header : List String) (rows : List (List String)) :
    ∀ c : Converter, ∃ cF recs,
      processLoop header c (rows.map .ok) = .ok (cF, recs) ∧
      (StoreWF c → StoreWF cF) := by
  induction rows with
  | nil => exact fun c => ⟨c, [], rfl, id⟩
  | cons row rest ih =>
    intro c
    by_cases h : (parseK33Record header row).TradeStatus = "Reject"
    · obtain ⟨cF, recs, hE, hwf⟩ := ih c
      exact ⟨cF, recs, by simpa [processLoop, h] using hE, hwf⟩
    · obtain ⟨cF, recs, hE, hwf⟩ := ih (processK33Record c (parseK33Record header row)).1
      refine ⟨cF, (processK33Record c (parseK33Record header row)).2 ++ recs, ?_,
              fun hc => hwf (storeWF_step _ _ hc)⟩
      simp only [List.map_cons, processLoop, h, if_false, hE]

theorem finish_lookup (c : Converter) (id : String) (tr : TradePair)
    (L1 : List KoinlyRecord)
    (hsome : (lookupTrade (if tr.BuyLeg.isSome && tr.SellLeg.isSome then
        (eraseTrade c id, L1) else (setTrade c id tr, [])).1 id).isSome = true) :
    (if tr.BuyLeg.isSome && tr.SellLeg.isSome then
        (eraseTrade c id, L1) else (setTrade c id tr, [])).2 = [] := by
  by_cases hb : (tr.BuyLeg.isSome && tr.SellLeg.isSome) = true
  · rw [if_pos hb] at hsome
    rw [show (eraseTrade c id, L1).1 = eraseTrade c id from rfl,
        lookupTrade_eraseTrade_self] at hsome
    simp at hsome
  · rw [if_neg hb]

theorem processTrade_buffered (c : Converter) (k : K33Record) (ts : String)
    (hsome : (lookupTrade (processTrade c k ts).1 k.TradeID).isSome = true) :
    (processTrade c k ts).2 = [] := by
  unfold processTrade at hsome ⊢
  by_cases hid : k.TradeID = ""
  · simp [hid]
  · simp only [hid, if_false] at hsome ⊢
    exact finish_lookup _ _ _ _ hsome

/-- C4: on a run over well-formed rows, `Process` returns successfully (a
`.ok` value, Go's nil error) with the loop's records, and every trade ID
still buffered with at least one leg at end of input yields exactly one
warning; moreover any trade row whose pair is still buffered right after
its own call produced zero output records in that call. -/
theorem unpaired_trade_behavior :
    (∀ (header : List String) (rows : List (List String)),
      ∃ cF recs,
        processLoop header [] (rows.map .ok) = .ok (cF, recs) ∧
        Process [] (.ok header :: rows.map .ok) = .ok ⟨recs, unpairedIDs cF⟩ ∧
        ∀ id t, (id, t) ∈ cF → (t.BuyLeg.isSome || t.SellLeg.isSome) = true →
          (unpairedIDs cF).count id = 1) ∧
    (∀ (c : Converter) (k : K33Record), k.TypeStatus = "Trade" →
      (lookupTrade (processK33Record c k).1 k.TradeID).isSome = true →
      (processK33Record c k).2 = []) := by
  constructor
  · intro header rows
    obtain ⟨cF, recs, hE, hwf⟩ := processLoop_ok header rows []
    refine ⟨cF, recs, hE, ?_, ?_⟩
    · simp only [Process, hE]
    · intro id t hmem hleg
      exact count_unpaired_one cF id t (hwf storeWF_nil) hmem hleg
  · intro c k hts hsome
    by_cases h : k.Timestamp = ""
    · rw [processK33_drop c k (Or.inr h)]
    · rw [processK33_trade c k hts h] at hsome ⊢
      exact processTrade_buffered _ _ _ hsome

theorem filterMap_dryRec_map (rs : List KoinlyRecord) :
    rs.filterMap (dryRecOf ∘ DryLine.record) = rs := by
  induction rs with
  | nil => rfl
  | cons r rest ih => simp [List.filterMap_cons, dryRecOf, ih]

theorem loop_relation (header : List String) :
    ∀ (events : List ReadEvent) (c : Converter),
      (∃ res lines, processLoop header c events = .ok res ∧
        dryLoop header c events = .ok lines ∧
        lines.filterMap dryRecOf = res.2) ∨
      (∃ e, processLoop header c events = .error e ∧
        dryLoop header c events = .error e) := by
  intro events
  induction events with
  | nil => exact fun c => Or.inl ⟨(c, []), [], rfl, rfl, rfl⟩
  | cons ev rest ih =>
    intro c
    cases ev with
    | error e => exact Or.inr ⟨"reading record: " ++ e, rfl, rfl⟩
    | ok row =>
      by_cases h : (parseK33Record header row).TradeStatus = "Reject"
      · rcases ih c with ⟨res, lines, h1, h2, h3⟩ | ⟨e, h1, h2⟩
        · refine Or.inl ⟨res, .skipped (parseK33Record header row).TypeStatus :: lines, ?_, ?_, ?_⟩
          · simpa [processLoop, h] using h1
          · simp [dryLoop, h, h2]
          · simp [List.filterMap_cons, dryRecOf, h3]
        · refine Or.inr ⟨e, ?_, ?_⟩
          · simpa [processLoop, h] using h1
          · simp [dryLoop, h, h2]
      · rcases ih (processK33Record c (parseK33Record header row)).1 with
          ⟨res, lines, h1, h2, h3⟩ | ⟨e, h1, h2⟩
        · refine Or.inl ⟨(res.1, (processK33Record c (parseK33Record header row)).2 ++ res.2),
            (processK33Record c (parseK33Record header row)).2.map .record ++ lines, ?_, ?_, ?_⟩
          · simp [processLoop, h, h1]
          · simp [dryLoop, h, h2]
          · simp [List.filterMap_append, filterMap_dryRec_map, h3]
        · refine Or.inr ⟨e, ?_, ?_⟩
          · simp [processLoop, h, h1]
          · simp [dryLoop, h, h2]

/-- C9: the dry run performs the same parsing, reject filtering,
classification and trade pairing as `Process`: on the same events both fail
with the same read error, and on success the dry run's record lines are
exactly the records `Process` produces, in the same order. -/
theorem dryrun_matches_process (c : Converter) (events : List ReadEvent) :
    (∀ e, Process c events = .error e ↔ ProcessDryRun c events = .error e) ∧
    (∀ out lines, Process c events = .ok out → ProcessDryRun c events = .ok lines →
      lines.filterMap dryRecOf = out.records) := by
  cases events with
  | nil =>
    constructor
    · intro e
      simp [Process, ProcessDryRun]
    · intro out lines hP
      simp [Process] at hP
  | cons ev rest =>
    cases ev with
    | error e0 =>
      constructor
      · intro e
        simp [Process, ProcessDryRun]
      · intro out lines hP
        simp [Process] at hP
    | ok header =>
      rcases loop_relation header rest c with ⟨res, lines, h1, h2, h3⟩ | ⟨e0, h1, h2⟩
      · obtain ⟨cF, recs⟩ := res
        constructor
        · intro e
          simp [Process, ProcessDryRun, h1, h2]
        · intro out lines' hP hD
          simp only [Process, h1] at hP
          simp only [ProcessDryRun, h2] at hD
          cases hP
          cases hD
          exact h3
      · constructor
        · intro e
          simp [Process, ProcessDryRun, h1, h2]
        · intro out lines' hP
          simp [Process, h1] at hP

theorem isDig_cases {c : Char} (h : isDig c = true) :
    c = '0' ∨ c = '1' ∨ c = '2' ∨ c = '3' ∨ c = '4' ∨
    c = '5' ∨ c = '6' ∨ c = '7' ∨ c = '8' ∨ c = '9' := by
  have h2 := h
  simp only [isDig, Bool.or_eq_true, decide_eq_true_eq] at h2
  tauto

theorem digVal_lt {c : Char} (h : isDig c = true) : digVal c < 10 := by
  rcases isDig_cases h with h | h | h | h | h | h | h | h | h | h <;> subst h <;> decide

theorem digitChar_digVal {c : Char} (h : isDig c = true) : digitChar (digVal c) = c := by
  rcases isDig_cases h with h | h | h | h | h | h | h | h | h | h <;> subst h <;> decide

theorem isDig_map_slash {c : Char} (h : isDig c = true) :
    (if c = '/' then '-' else c) = c := by
  rcases isDig_cases h with h | h | h | h | h | h | h | h | h | h <;> subst h <;> decide

theorem isDig_ne_space {c : Char} (h : isDig c = true) : c ≠ ' ' := by
  rcases isDig_cases h with h | h | h | h | h | h | h | h | h | h <;> subst h <;> decide

theorem pad2_digits {a b : Char} (ha : isDig a = true) (hb : isDig b = true) :
    pad2 (10 * digVal a + digVal b) = [a, b] := by
  have h1 := digVal_lt ha
  have h2 := digVal_lt hb
  unfold pad2
  have e1 : (10 * digVal a + digVal b) / 10 % 10 = digVal a := by omega
  have e2 : (10 * digVal a + digVal b) % 10 = digVal b := by omega
  rw [e1, e2, digitChar_digVal ha, digitChar_digVal hb]

theorem pad4_digits {a b c d : Char} (ha : isDig a = true) (hb : isDig b = true)
    (hc : isDig c = true) (hd : isDig d = true) :
    pad4 (1000 * digVal a + 100 * digVal b + 10 * digVal c + digVal d) = [a, b, c, d] := by
  have h1 := digVal_lt ha
  have h2 := digVal_lt hb
  have h3 := digVal_lt hc
  have h4 := digVal_lt hd
  unfold pad4
  have e1 : (1000 * digVal a + 100 * digVal b + 10 * digVal c + digVal d) / 1000 % 10 = digVal a := by
    omega
  have e2 : (1000 * digVal a + 100 * digVal b + 10 * digVal c + digVal d) / 100 % 10 = digVal b := by
    omega
  have e3 : (1000 * digVal a + 100 * digVal b + 10 * digVal c + digVal d) / 10 % 10 = digVal c := by
    omega
  have e4 : (1000 * digVal a + 100 * digVal b + 10 * digVal c + digVal d) % 10 = digVal d := by
    omega
  rw [e1, e2, e3, e4, digitChar_digVal ha, digitChar_digVal hb,
      digitChar_digVal hc, digitChar_digVal hd]

/-- C5, counterexample to the claim as stated: Go's hour field `15` also
accepts a single digit, so `2023/01/15 3:04:05` does not match the strict
zero-padded pattern yet is not returned unchanged (it is reformatted with a
zero-padded hour).  The last two conjuncts record the other parser
leniencies: a fractional second after the seconds field is accepted and
discarded, and a layout space matches a run of input spaces that is
collapsed on output; those inputs are reformatted rather than returned
unchanged as well. -/
theorem convertTimestamp_lenient_hour :
    matchesK33Pattern "2023/01/15 3:04:05" = false ∧
    convertTimestamp "2023/01/15 3:04:05" = "2023-01-15 03:04:05" ∧
    convertTimestamp "2023/01/15 3:04:05" ≠ "2023/01/15 3:04:05" ∧
    convertTimestamp "2023/01/15 10:30:45.123" = "2023-01-15 10:30:45" ∧
    convertTimestamp "2023/01/15  10:30:45" = "2023-01-15 10:30:45" := by
  refine ⟨by decide, by decide, by decide, by decide, by decide⟩

/-- C5, as amended: a string exactly matching `YYYY/MM/DD HH:MM:SS`
(zero-padded, a valid instant) is returned with the two slashes replaced by
dashes; a string the layout parser rejects is returned unchanged, and the
function never fails.  The parser is lenient beyond the strict pattern: it
also accepts a one-digit hour (rendered zero-padded), a fractional second
after the seconds field (discarded), and a run of spaces between the date
and the clock (collapsed), so those inputs are reformatted, not returned
unchanged. -/
theorem convertTimestamp_spec (s : String) :
    (matchesK33Pattern s = true → convertTimestamp s = slashToDash s) ∧
    (parseTs s = none → convertTimestamp s = s) := by
  constructor
  · intro hm
    unfold matchesK33Pattern at hm
    split at hm
    case h_2 => simp at hm
    case h_1 y1 y2 y3 y4 a m1 m2 b d1 d2 sp h1 h2 e n1 n2 f s1 s2 heq =>
      simp only [Bool.and_eq_true, decide_eq_true_eq, and_assoc] at hm
      obtain ⟨ha, hb, hsp, he, hf, hy1, hy2, hy3, hy4, hm1, hm2, hd1, hd2,
        hh1, hh2, hn1, hn2, hs1, hs2, hmo1, hmo2, hdy1, hdy2, hhr, hmi, hse⟩ := hm
      subst ha; subst hb; subst hsp; subst he; subst hf
      have hparse : parseTs s = some
          ⟨1000 * digVal y1 + 100 * digVal y2 + 10 * digVal y3 + digVal y4,
           10 * digVal m1 + digVal m2, 10 * digVal d1 + digVal d2,
           10 * digVal h1 + digVal h2, 10 * digVal n1 + digVal n2,
           10 * digVal s1 + digVal s2⟩ := by
        unfold parseTs
        rw [heq]
        simp only [hy1, hy2, hy3, hy4, Bool.and_self, if_true, expectChar,
          skipSpace, cutspace, dropFrac, getnum, hm1, hm2, hd1, hd2,
          hh1, hh2, hn1, hn2, hs1, hs2, isDig_ne_space hh1,
          if_false, Bool.and_eq_true, decide_eq_true_eq]
        simp [hmo1, hmo2, hdy1, hdy2, hhr, hmi, hse, isDig_ne_space hh1]
      unfold convertTimestamp
      rw [hparse]
      unfold renderTs slashToDash
      rw [heq]
      simp only [pad4_digits hy1 hy2 hy3 hy4, pad2_digits hm1 hm2,
        pad2_digits hd1 hd2, pad2_digits hh1 hh2, pad2_digits hn1 hn2,
        pad2_digits hs1 hs2, List.map_cons, List.map_nil,
        isDig_map_slash hy1, isDig_map_slash hy2, isDig_map_slash hy3,
        isDig_map_slash hy4, isDig_map_slash hm1, isDig_map_slash hm2,
        isDig_map_slash hd1, isDig_map_slash hd2, isDig_map_slash hh1,
        isDig_map_slash hh2, isDig_map_slash hn1, isDig_map_slash hn2,
        isDig_map_slash hs1, isDig_map_slash hs2]
      simp
  · intro hp
    unfold convertTimestamp
    rw [hp]

theorem log2F_bounds : ∀ (fuel n : Nat), 0 < n → n ≤ fuel →
    2 ^ log2F fuel n ≤ n ∧ n < 2 ^ (log2F fuel n + 1) := by
  intro fuel
  induction fuel with
  | zero => intro n h1 h2; omega
  | succ f ih =>
    intro n h1 h2
    unfold log2F
    by_cases h : 2 ≤ n
    · have hrec := ih (n / 2) (by omega) (by omega)
      simp only [h, if_true]
      constructor
      · calc 2 ^ (log2F f (n / 2) + 1) = 2 * 2 ^ log2F f (n / 2) := by ring
        _ ≤ 2 * (n / 2) := by omega
        _ ≤ n := by omega
      · calc n ≤ 2 * (n / 2) + 1 := by omega
        _ < 2 * 2 ^ (log2F f (n / 2) + 1) := by omega
        _ = 2 ^ (log2F f (n / 2) + 1 + 1) := by ring
    · simp only [h, if_false]
      omega

theorem rneNatFrac_exact (k d : Nat) (hd : 0 < d) : rneNatFrac (k * d) d = k := by
  unfold rneNatFrac
  have h1 : k * d % d = 0 := Nat.mul_mod_left k d
  have h2 : k * d / d = k := Nat.mul_div_cancel k hd
  simp [h1, h2, hd]

theorem rneNatFrac_le (n d : Nat) : rneNatFrac n d ≤ n / d + 1 := by
  unfold rneNatFrac
  split
  · omega
  · split
    · omega
    · split <;> omega

theorem rneNatFrac_lt (n d B : Nat) (_hd : 0 < d) (h : n < d * B) :
    rneNatFrac n d ≤ B := by
  have hq : n / d < B := Nat.div_lt_of_lt_mul (by omega)
  have := rneNatFrac_le n d
  omega

theorem flog2_bounds (n d : Nat) (hn : 0 < n) (hd : 0 < d) :
    d * 2 ^ (flog2 n d).toNat ≤ n * 2 ^ (-(flog2 n d)).toNat ∧
    n * 2 ^ (-(flog2 n d + 1)).toNat < d * 2 ^ (flog2 n d + 1).toNat := by
  have bn := log2F_bounds n n hn le_rfl
  have bd := log2F_bounds d d hd le_rfl
  unfold flog2
  set a := log2F n n with ha
  set b := log2F d d with hb
  set c : Int := (a : Int) - (b : Int) with hc
  by_cases hcond : (if 0 ≤ c then n < d * 2 ^ c.toNat else n * 2 ^ (-c).toNat < d)
  · rw [if_pos hcond]
    constructor
    · by_cases hab : b + 1 ≤ a
      · have e1 : (c - 1).toNat = a - b - 1 := by omega
        have e2 : (-(c - 1)).toNat = 0 := by omega
        rw [e1, e2, pow_zero, mul_one]
        have step : d * 2 ^ (a - b - 1) < 2 ^ (b + 1) * 2 ^ (a - b - 1) :=
          Nat.mul_lt_mul_of_lt_of_le bd.2 le_rfl (Nat.pos_pow_of_pos _ (by norm_num))
        have e3 : 2 ^ (b + 1) * 2 ^ (a - b - 1) = 2 ^ a := by
          rw [← pow_add]; congr 1; omega
        omega
      · have e1 : (c - 1).toNat = 0 := by omega
        have e2 : (-(c - 1)).toNat = b + 1 - a := by omega
        rw [e1, e2, pow_zero, mul_one]
        have step : 2 ^ a * 2 ^ (b + 1 - a) ≤ n * 2 ^ (b + 1 - a) :=
          Nat.mul_le_mul_right _ bn.1
        have e3 : 2 ^ a * 2 ^ (b + 1 - a) = 2 ^ (b + 1) := by
          rw [← pow_add]; congr 1; omega
        omega
    · by_cases h0 : 0 ≤ c
      · rw [if_pos h0] at hcond
        have e1 : (-(c - 1 + 1)).toNat = 0 := by omega
        have e2 : (c - 1 + 1).toNat = c.toNat := by omega
        rw [e1, e2, pow_zero, mul_one]
        exact hcond
      · rw [if_neg h0] at hcond
        have e1 : (-(c - 1 + 1)).toNat = (-c).toNat := by omega
        have e2 : (c - 1 + 1).toNat = 0 := by omega
        rw [e1, e2, pow_zero, mul_one]
        exact hcond
  · rw [if_neg hcond]
    constructor
    · by_cases h0 : 0 ≤ c
      · rw [if_pos h0] at hcond
        have e1 : (-c).toNat = 0 := by omega
        rw [e1, pow_zero, mul_one]
        omega
      · rw [if_neg h0] at hcond
        have e1 : c.toNat = 0 := by omega
        rw [e1, pow_zero, mul_one]
        omega
    · by_cases hab : b ≤ a + 1
      · have e1 : (-(c + 1)).toNat = 0 := by omega
        have e2 : (c + 1).toNat = a + 1 - b := by omega
        rw [e1, e2, pow_zero, mul_one]
        have step : 2 ^ b * 2 ^ (a + 1 - b) ≤ d * 2 ^ (a + 1 - b) :=
          Nat.mul_le_mul_right _ bd.1
        have e3 : 2 ^ b * 2 ^ (a + 1 - b) = 2 ^ (a + 1) := by
          rw [← pow_add]; congr 1; omega
        omega
      · have e1 : (-(c + 1)).toNat = b - a - 1 := by omega
        have e2 : (c + 1).toNat = 0 := by omega
        rw [e1, e2, pow_zero, mul_one]
        have step : n * 2 ^ (b - a - 1) < 2 ^ (a + 1) * 2 ^ (b - a - 1) :=
          Nat.mul_lt_mul_of_lt_of_le bn.2 le_rfl (Nat.pos_pow_of_pos _ (by norm_num))
        have e3 : 2 ^ (a + 1) * 2 ^ (b - a - 1) = 2 ^ b := by
          rw [← pow_add]; congr 1; omega
        omega

theorem roundE_ge (n d : Nat) : (-1074 : Int) ≤ roundE n d := le_max_left _ _

theorem roundFrac_wf (n d m : Nat) (e : Int) (hd : 0 < d)
    (h : roundFrac n d = some (m, e)) :
    m ≤ 2 ^ 53 ∧ -1074 ≤ e ∧ pow2ge1024 m e = false := by
  unfold roundFrac at h
  by_cases hn : n = 0
  · simp only [hn, if_true, Option.some.injEq, Prod.mk.injEq] at h
    obtain ⟨hm, he⟩ := h
    subst hm; subst he
    refine ⟨by positivity, by norm_num, ?_⟩
    unfold pow2ge1024
    simp
  · simp only [hn, if_false] at h
    have hnpos : 0 < n := Nat.pos_of_ne_zero hn
    have hb := flog2_bounds n d hnpos hd
    set t := flog2 n d with hT
    have hE : roundE n d = max (-1074) (t - 52) := rfl
    split at h
    · exact absurd h (by simp)
    · rename_i hovf
      simp only [Option.some.injEq, Prod.mk.injEq] at h
      obtain ⟨hm, he⟩ := h
      subst hm; subst he
      refine ⟨?_, roundE_ge n d, by simpa using hovf⟩
      unfold roundM roundP
      by_cases hpos : (0:Int) ≤ roundE n d
      · rw [if_pos hpos]
        have ht52 : roundE n d = t - 52 := by omega
        have h1 : (-(t + 1)).toNat = 0 := by omega
        have h2 : (t + 1).toNat = (roundE n d).toNat + 53 := by omega
        have hub := hb.2
        rw [h1, pow_zero, mul_one, h2, pow_add] at hub
        exact rneNatFrac_lt _ _ _ (by positivity)
          (by rw [← mul_assoc] at hub; exact hub)
      · rw [if_neg hpos]
        have hub := hb.2
        by_cases hcase : 0 ≤ t + 1
        · have ht52 : roundE n d = t - 52 := by omega
          have h1 : (-(t + 1)).toNat = 0 := by omega
          have h2 : (t + 1).toNat + (-(roundE n d)).toNat = 53 := by omega
          rw [h1, pow_zero, mul_one] at hub
          have hstep : n * 2 ^ (-(roundE n d)).toNat <
              d * 2 ^ (t + 1).toNat * 2 ^ (-(roundE n d)).toNat :=
            Nat.mul_lt_mul_of_lt_of_le hub le_rfl (by positivity)
          rw [mul_assoc, ← pow_add, h2] at hstep
          exact rneNatFrac_lt _ _ _ hd hstep
        · have h1 : (t + 1).toNat = 0 := by omega
          rw [h1, pow_zero, mul_one] at hub
          have hle : (-(roundE n d)).toNat ≤ (-(t + 1)).toNat + 53 := by omega
          have hstep : n * 2 ^ (-(roundE n d)).toNat < d * 2 ^ 53 := by
            calc n * 2 ^ (-(roundE n d)).toNat
                ≤ n * 2 ^ ((-(t + 1)).toNat + 53) :=
                  Nat.mul_le_mul_left _ (Nat.pow_le_pow_right (by norm_num) hle)
              _ = n * 2 ^ (-(t + 1)).toNat * 2 ^ 53 := by rw [pow_add, mul_assoc]
              _ < d * 2 ^ 53 :=
                  Nat.mul_lt_mul_of_lt_of_le hub le_rfl (by positivity)
          exact rneNatFrac_lt _ _ _ hd hstep

theorem log2F_one : log2F 1 1 = 0 := rfl

theorem flog2_one_right (n : Nat) (hn : 0 < n) :
    flog2 n 1 = (log2F n n : Int) := by
  have bn := log2F_bounds n n hn le_rfl
  unfold flog2
  rw [log2F_one]
  have hc : ((log2F n n : Int) - ((0:Nat) : Int)) = (log2F n n : Int) := by
    push_cast; ring
  rw [hc]
  have h0 : (0:Int) ≤ (log2F n n : Int) := Int.natCast_nonneg _
  rw [if_neg]
  rw [if_pos h0, Int.toNat_natCast]
  simp only [one_mul]
  omega

theorem rep_pow_dvd (n m0 e0 a : Nat) (hm : m0 ≤ 2 ^ 53) (heq : n = m0 * 2 ^ e0)
    (h1 : 2 ^ a ≤ n) (_h2 : n < 2 ^ (a + 1)) (ha : 52 ≤ a) : 2 ^ (a - 52) ∣ n := by
  by_cases hje : a - 52 ≤ e0
  · exact heq ▸ Dvd.dvd.mul_left (pow_dvd_pow 2 hje) m0
  · have he0 : e0 ≤ a - 53 := by omega
    have hm0 : 2 ^ (a - e0) ≤ m0 := by
      by_contra hcon
      push_neg at hcon
      have : n < 2 ^ (a - e0) * 2 ^ e0 := by
        rw [heq]
        exact Nat.mul_lt_mul_of_lt_of_le hcon le_rfl (by positivity)
      rw [← pow_add] at this
      have he : a - e0 + e0 = a := by omega
      rw [he] at this
      omega
    have h53 : 2 ^ 53 ≤ m0 := le_trans (Nat.pow_le_pow_right (by norm_num) (by omega)) hm0
    have hmeq : m0 = 2 ^ 53 := le_antisymm hm h53
    subst hmeq
    rw [heq, ← pow_add]
    apply pow_dvd_pow
    -- need a - 52 ≤ 53 + e0, from 2 ^ a ≤ n = 2 ^ (53 + e0)
    have : 2 ^ a ≤ 2 ^ (53 + e0) := by rw [← pow_add] at heq; omega
    have haa : a ≤ 53 + e0 := by
      by_contra hcon
      push_neg at hcon
      have hp : (2:Nat) ^ (53 + e0) < 2 ^ a :=
        Nat.pow_lt_pow_right (by norm_num) hcon
      omega
    omega

theorem roundFrac_exact_nat (n : Nat)
    (hrep : ∃ m0 e0 : Nat, m0 ≤ 2 ^ 53 ∧ n = m0 * 2 ^ e0)
    (hlt : n < 2 ^ 1024) :
    ∃ m e, roundFrac n 1 = some (m, e) ∧ rneOfFin m e = n := by
  by_cases hn : n = 0
  · subst hn
    refine ⟨0, 0, by simp [roundFrac], by simp [rneOfFin]⟩
  · have hnpos : 0 < n := Nat.pos_of_ne_zero hn
    obtain ⟨m0, e0, hm, heq⟩ := hrep
    have bn := log2F_bounds n n hnpos le_rfl
    set a := log2F n n with ha
    have hfl : flog2 n 1 = (a : Int) := flog2_one_right n hnpos
    have hE : roundE n 1 = (a : Int) - 52 := by
      unfold roundE
      rw [hfl]
      omega
    by_cases hcase : 52 ≤ a
    · have hpos : (0:Int) ≤ roundE n 1 := by omega
      have htn : (roundE n 1).toNat = a - 52 := by omega
      have hdvd : 2 ^ (a - 52) ∣ n := rep_pow_dvd n m0 e0 a hm heq bn.1 bn.2 hcase
      obtain ⟨k, hk⟩ := hdvd
      have hk2 : n = k * 2 ^ (a - 52) := by rw [hk]; ring
      have hM : roundM n 1 = k := by
        unfold roundM roundP
        rw [if_pos hpos, htn, one_mul]
        calc rneNatFrac n (2 ^ (a - 52))
            = rneNatFrac (k * 2 ^ (a - 52)) (2 ^ (a - 52)) := by rw [← hk2]
          _ = k := rneNatFrac_exact k _ (by positivity)
      have hO : pow2ge1024 (roundM n 1) (roundE n 1) = false := by
        unfold pow2ge1024
        rw [if_pos hpos, htn, hM]
        simp only [decide_eq_false_iff_not]
        intro hcon
        rw [← hk2] at hcon
        omega
      refine ⟨k, roundE n 1, ?_, ?_⟩
      · unfold roundFrac
        rw [if_neg hn, hO, hM]
        simp
      · unfold rneOfFin
        rw [if_pos hpos, htn]
        omega
    · have hneg : ¬ (0:Int) ≤ roundE n 1 := by omega
      have htn : (-(roundE n 1)).toNat = 52 - a := by omega
      have hM : roundM n 1 = n * 2 ^ (52 - a) := by
        unfold roundM roundP
        rw [if_neg hneg, htn]
        simpa using rneNatFrac_exact (n * 2 ^ (52 - a)) 1 one_pos
      have hO : pow2ge1024 (roundM n 1) (roundE n 1) = false := by
        unfold pow2ge1024
        rw [if_neg hneg, htn, hM]
        simp only [decide_eq_false_iff_not]
        intro hcon
        rw [pow_add] at hcon
        have h2 : 2 ^ 1024 ≤ n :=
          Nat.le_of_mul_le_mul_right (by omega)
            (by positivity : (0:Nat) < 2 ^ (52 - a))
        omega
      refine ⟨n * 2 ^ (52 - a), roundE n 1, ?_, ?_⟩
      · unfold roundFrac
        rw [if_neg hn, hO, hM]
        simp
      · unfold rneOfFin
        rw [if_neg hneg, htn]
        exact rneNatFrac_exact n (2 ^ (52 - a)) (by positivity)

theorem digVal_digitChar {n : Nat} (h : n < 10) : digVal (digitChar n) = n := by
  interval_cases n <;> decide

theorem isDig_digitChar {n : Nat} (h : n < 10) : isDig (digitChar n) = true := by
  interval_cases n <;> decide

theorem digitsVal_append (xs : List Char) (c : Char) :
    digitsVal (xs ++ [c]) = 10 * digitsVal xs + digVal c := by
  unfold digitsVal
  rw [List.foldl_append]
  rfl

theorem natDecAux_spec : ∀ (fuel n : Nat), n < fuel →
    digitsVal (natDecAux fuel n) = n ∧ natDecAux fuel n ≠ [] ∧
    ∀ c ∈ natDecAux fuel n, isDig c = true := by
  intro fuel
  induction fuel with
  | zero => intro n h; omega
  | succ f ih =>
    intro n h
    unfold natDecAux
    by_cases h10 : n < 10
    · simp only [h10, if_true]
      refine ⟨?_, by simp, ?_⟩
      · unfold digitsVal
        simp [digVal_digitChar h10]
      · intro c hc
        simp only [List.mem_singleton] at hc
        subst hc
        exact isDig_digitChar h10
    · simp only [h10, if_false]
      have hrec := ih (n / 10) (by omega)
      refine ⟨?_, by simp, ?_⟩
      · rw [digitsVal_append, hrec.1, digVal_digitChar (by omega)]
        omega
      · intro c hc
        rcases List.mem_append.mp hc with h1 | h1
        · exact hrec.2.2 c h1
        · simp only [List.mem_singleton] at h1
          subst h1
          exact isDig_digitChar (by omega)

theorem natDecRepr_spec (n : Nat) :
    digitsVal (natDecRepr n) = n ∧ natDecRepr n ≠ [] ∧
    ∀ c ∈ natDecRepr n, isDig c = true :=
  natDecAux_spec (n + 1) n (by omega)

theorem isDig_ne {c : Char} (h : isDig c = true) :
    c ≠ '_' ∧ c ≠ '.' ∧ c ≠ '+' ∧ c ≠ '-' ∧ c ≠ 'i' ∧ c ≠ 'I' ∧
    c ≠ 'n' ∧ c ≠ 'N' ∧ c ≠ 'x' ∧ c ≠ 'X' ∧ c ≠ 'e' ∧ c ≠ 'E' := by
  rcases isDig_cases h with h | h | h | h | h | h | h | h | h | h <;> subst h <;> decide

theorem hasUnd_digits : ∀ (ds : List Char), (∀ c ∈ ds, isDig c = true) →
    hasUnd ds = false := by
  intro ds
  induction ds with
  | nil => intro _; rfl
  | cons c rest ih =>
    intro hall
    have hc := (isDig_ne (hall c (List.mem_cons_self _ _))).1
    unfold hasUnd at ih ⊢
    simp only [List.contains_cons]
    rw [ih (fun x hx => hall x (List.mem_cons_of_mem _ hx))]
    simpa using fun h => hc h.symm

theorem readMant_digits : ∀ (ds : List Char) (a : MantAcc),
    (∀ c ∈ ds, isDig c = true) → a.sawdot = false →
    readMant 10 isDig digVal ds a =
      ({ mant := ds.foldl (fun x c => 10 * x + digVal c) a.mant,
         frac := a.frac, sawdot := false,
         sawdig := a.sawdig || !ds.isEmpty, und := a.und }, []) := by
  intro ds
  induction ds with
  | nil =>
    intro a hall hdot
    unfold readMant
    cases a
    simp_all
  | cons c rest ih =>
    intro a hall hdot
    have hc := hall c (List.mem_cons_self _ _)
    have hne := isDig_ne hc
    unfold readMant
    rw [if_neg hne.1, if_neg hne.2.1, if_pos hc]
    rw [ih _ (fun x hx => hall x (List.mem_cons_of_mem _ hx)) (by simpa using hdot)]
    simp [hdot]

theorem readFloatBodyDec_digits (ds : List Char)
    (hall : ∀ c ∈ ds, isDig c = true) (hne : ds ≠ []) :
    readFloatBodyDec ds = some (.dec (digitsVal ds) 0) := by
  unfold readFloatBodyDec
  rw [readMant_digits ds mantAcc0 hall rfl]
  have hempty : ds.isEmpty = false := by
    cases ds
    · exact absurd rfl hne
    · rfl
  simp only [hempty, mantAcc0]
  simp [readExpPart, digitsVal]

theorem readFloatBody_digits (ds : List Char)
    (hall : ∀ c ∈ ds, isDig c = true) (hne : ds ≠ []) :
    readFloatBody ds = some (.dec (digitsVal ds) 0) := by
  match ds, hne with
  | [c], _ => exact readFloatBodyDec_digits [c] hall (by simp)
  | c0 :: c1 :: r, _ =>
    have h1 := isDig_ne (hall c1 (List.mem_cons_of_mem _ (List.mem_cons_self _ _)))
    simp only [readFloatBody]
    rw [if_neg]
    · exact readFloatBodyDec_digits _ hall (by simp)
    · simp only [Bool.and_eq_true, decide_eq_true_eq, Bool.or_eq_true, not_and, not_or]
      intro _
      exact ⟨h1.2.2.2.2.2.2.2.2.1, h1.2.2.2.2.2.2.2.2.2.1⟩

theorem isInfList_digit_head {c : Char} (rest : List Char) (hc : isDig c = true) :
    isInfList (c :: rest) = false := by
  have hi := (isDig_ne hc).2.2.2.2.1
  have hI := (isDig_ne hc).2.2.2.2.2.1
  unfold isInfList
  match rest with
  | [] => rfl
  | [_] => rfl
  | [b, c2] => simp [hi, hI]
  | _ :: _ :: _ :: _ => rfl

theorem isInfinityList_digit_head {c : Char} (rest : List Char) (hc : isDig c = true) :
    isInfinityList (c :: rest) = false := by
  have hi := (isDig_ne hc).2.2.2.2.1
  have hI := (isDig_ne hc).2.2.2.2.2.1
  unfold isInfinityList
  match rest with
  | [] => rfl
  | [_] => rfl
  | [_, _] => rfl
  | [_, _, _] => rfl
  | [_, _, _, _] => rfl
  | [_, _, _, _, _] => rfl
  | [_, _, _, _, _, _] => rfl
  | [b, c2, d, e, f, g, h] => simp [hi, hI]
  | _ :: _ :: _ :: _ :: _ :: _ :: _ :: _ :: _ => rfl

theorem isNanList_digit_head {c : Char} (rest : List Char) (hc : isDig c = true) :
    isNanList (c :: rest) = false := by
  have hn := (isDig_ne hc).2.2.2.2.2.2.1
  have hN := (isDig_ne hc).2.2.2.2.2.2.2.1
  unfold isNanList
  match rest with
  | [] => rfl
  | [_] => rfl
  | [b, c2] => simp [hn, hN]
  | _ :: _ :: _ :: _ => rfl

theorem parseSpecial_digits {c : Char} (rest : List Char) (hc : isDig c = true) :
    parseSpecial (c :: rest) = none := by
  have hne := isDig_ne hc
  simp only [parseSpecial]
  rw [if_neg hne.2.2.1, if_neg hne.2.2.2.1,
      isInfList_digit_head rest hc, isInfinityList_digit_head rest hc,
      isNanList_digit_head rest hc]
  simp

theorem parseSpecial_neg_digits {c : Char} (rest : List Char) (hc : isDig c = true) :
    parseSpecial ('-' :: c :: rest) = none := by
  simp only [parseSpecial]
  simp only [show (('-':Char) = '+') = False from by decide,
    show (('-':Char) = '-') = True from by decide, if_false, if_true,
    isInfList_digit_head rest hc, isInfinityList_digit_head rest hc]
  simp

theorem parseNumeric_digits (ds : List Char)
    (hall : ∀ c ∈ ds, isDig c = true) (hne : ds ≠ []) :
    parseNumeric ds = some (false, .dec (digitsVal ds) 0) := by
  match ds, hne with
  | c :: rest, _ =>
    have hcne := isDig_ne (hall c (List.mem_cons_self _ _))
    simp only [parseNumeric]
    rw [if_neg hcne.2.2.1, if_neg hcne.2.2.2.1]
    rw [readFloatBody_digits _ hall (by simp)]
    rw [hasUnd_digits _ hall]
    rfl

theorem parseNumeric_neg_digits (ds : List Char)
    (hall : ∀ c ∈ ds, isDig c = true) (hne : ds ≠ []) :
    parseNumeric ('-' :: ds) = some (true, .dec (digitsVal ds) 0) := by
  have hu : hasUnd ('-' :: ds) = false := by
    have h0 := hasUnd_digits ds hall
    unfold hasUnd at h0 ⊢
    simp only [List.contains_cons, h0, Bool.or_false]
    decide
  simp only [parseNumeric]
  simp only [show (('-':Char) = '+') = False from by decide,
    show (('-':Char) = '-') = True from by decide, if_false, if_true]
  rw [readFloatBody_digits _ hall hne, hu]
  rfl

theorem parseSpecial_no_finite (cs : List Char) (neg : Bool) (m : Nat) (e : Int) :
    parseSpecial cs ≠ some (.finite neg m e) := by
  unfold parseSpecial
  cases cs with
  | nil => simp
  | cons c rest =>
    by_cases h1 : c = '+' <;> by_cases h2 : c = '-' <;>
      simp only [h1, h2, if_true, if_false] <;> split_ifs <;> simp

theorem fracOfNumVal_pos (nv : NumVal) : 0 < (fracOfNumVal nv).2 := by
  cases nv <;> simp only [fracOfNumVal] <;> split <;> dsimp only <;> positivity

theorem goParseFloat_finite_inv {s : String} {neg : Bool} {m0 : Nat} {e0 : Int}
    (h : goParseFloat s = some (.finite neg m0 e0)) :
    ∃ n d : Nat, 0 < d ∧ roundFrac n d = some (m0, e0) := by
  unfold goParseFloat at h
  cases hsp : parseSpecial s.toList with
  | some g =>
    rw [hsp] at h
    injection h with h2
    subst h2
    exact absurd hsp (parseSpecial_no_finite _ _ _ _)
  | none =>
    rw [hsp] at h
    cases hpn : parseNumeric s.toList with
    | none => rw [hpn] at h; cases h
    | some p =>
      obtain ⟨neg', nv⟩ := p
      rw [hpn] at h
      simp only at h
      cases hrf : roundFrac (fracOfNumVal nv).1 (fracOfNumVal nv).2 with
      | none => rw [hrf] at h; cases h
      | some me =>
        obtain ⟨m1, e1⟩ := me
        rw [hrf] at h
        simp only [Option.some.injEq, GoFloat.finite.injEq] at h
        obtain ⟨-, hm, he⟩ := h
        exact ⟨(fracOfNumVal nv).1, (fracOfNumVal nv).2, fracOfNumVal_pos nv,
          by rw [hrf, hm, he]⟩

theorem rneOfFin_rep (m0 : Nat) (e0 : Int) (hm : m0 ≤ 2 ^ 53)
    (hovf : pow2ge1024 m0 e0 = false) :
    (∃ ma eb : Nat, ma ≤ 2 ^ 53 ∧ rneOfFin m0 e0 = ma * 2 ^ eb) ∧
    rneOfFin m0 e0 < 2 ^ 1024 := by
  unfold rneOfFin
  by_cases hpos : (0:Int) ≤ e0
  · rw [if_pos hpos]
    unfold pow2ge1024 at hovf
    rw [if_pos hpos] at hovf
    simp only [decide_eq_false_iff_not, not_le] at hovf
    exact ⟨⟨m0, e0.toNat, hm, rfl⟩, hovf⟩
  · rw [if_neg hpos]
    have hw : 1 ≤ (-e0).toNat := by omega
    have hle := rneNatFrac_le m0 (2 ^ (-e0).toNat)
    have hdenom : (2:Nat) ≤ 2 ^ (-e0).toNat := by
      calc (2:Nat) = 2 ^ 1 := rfl
        _ ≤ 2 ^ (-e0).toNat := Nat.pow_le_pow_right (by norm_num) hw
    have hdiv : m0 / 2 ^ (-e0).toNat ≤ m0 / 2 := Nat.div_le_div_left hdenom (by norm_num)
    have hhalf : m0 / 2 ≤ 2 ^ 52 := by
      have : (2:Nat) ^ 53 = 2 * 2 ^ 52 := by ring
      omega
    have hbig : (2:Nat) ^ 52 + 1 ≤ 2 ^ 53 := by norm_num
    have hbig2 : (2:Nat) ^ 53 < 2 ^ 1024 := by norm_num
    refine ⟨⟨rneNatFrac m0 (2 ^ (-e0).toNat), 0, by omega, by rw [pow_zero, mul_one]⟩, by omega⟩

theorem string_mk_toList (l : List Char) : (String.mk l).toList = l := rfl

theorem string_mk_ne_empty (l : List Char) (h : l ≠ []) : String.mk l ≠ "" := by
  intro hcon
  exact h (congrArg String.toList hcon)

theorem goParseFloat_render (neg : Bool) (n : Nat)
    (hrep : ∃ m0 e0 : Nat, m0 ≤ 2 ^ 53 ∧ n = m0 * 2 ^ e0) (hlt : n < 2 ^ 1024) :
    ∃ m e, goParseFloat ((if neg then "-" else "") ++ String.mk (natDecRepr n)) =
      some (.finite neg m e) ∧ rneOfFin m e = n := by
  obtain ⟨hdv, hne, hall⟩ := natDecRepr_spec n
  obtain ⟨m, e, hrf, hval⟩ := roundFrac_exact_nat n hrep hlt
  obtain ⟨c, rest, hshape⟩ : ∃ c rest, natDecRepr n = c :: rest := by
    cases hcase : natDecRepr n with
    | nil => exact absurd hcase hne
    | cons c rest => exact ⟨c, rest, rfl⟩
  have hall2 : ∀ x ∈ c :: rest, isDig x = true := by
    rw [← hshape]; exact hall
  have hcd : isDig c = true := hall2 c (List.mem_cons_self _ _)
  have hdv2 : digitsVal (c :: rest) = n := by rw [← hshape]; exact hdv
  have hfrac : roundFrac (fracOfNumVal (.dec (digitsVal (c :: rest)) 0)).1
      (fracOfNumVal (.dec (digitsVal (c :: rest)) 0)).2 = some (m, e) := by
    have hpair : fracOfNumVal (.dec (digitsVal (c :: rest)) 0) = (n, 1) := by
      unfold fracOfNumVal
      rw [hdv2]
      norm_num
    rw [hpair]
    exact hrf
  refine ⟨m, e, ?_, hval⟩
  cases neg with
  | false =>
    have hlist : ((if false then "-" else "") ++ String.mk (natDecRepr n)).toList
        = c :: rest := by rw [← hshape]; rfl
    unfold goParseFloat
    rw [hlist, parseSpecial_digits rest hcd,
        parseNumeric_digits (c :: rest) hall2 (by simp)]
    simp only
    rw [hfrac]
  | true =>
    have hlist : ((if true then "-" else "") ++ String.mk (natDecRepr n)).toList
        = '-' :: c :: rest := by rw [← hshape]; rfl
    unfold goParseFloat
    rw [hlist, parseSpecial_neg_digits rest hcd,
        parseNumeric_neg_digits (c :: rest) hall2 (by simp)]
    simp only
    rw [hfrac]

/-- C7: the trade-ID normalizer is idempotent: applying it to its own
output yields the same string, for every input string. -/
theorem formatTradeID_idem (s : String) :
    formatTradeID (formatTradeID s) = formatTradeID s := by
  by_cases hs : s = ""
  · subst hs
    rfl
  · cases hpf : goParseFloat s with
    | none =>
      have h1 : formatTradeID s = s := by
        unfold formatTradeID
        rw [if_neg hs, hpf]
      rw [h1]
      exact h1
    | some f =>
      have h1 : formatTradeID s = sprintF0 f := by
        unfold formatTradeID
        rw [if_neg hs, hpf]
      rw [h1]
      cases f with
      | nan => decide
      | inf neg => cases neg <;> decide
      | finite neg m0 e0 =>
        obtain ⟨n', d', hd', hrf⟩ := goParseFloat_finite_inv hpf
        obtain ⟨hm53, he0, hovf⟩ := roundFrac_wf n' d' m0 e0 hd' hrf
        obtain ⟨hrepN, hltN⟩ := rneOfFin_rep m0 e0 hm53 hovf
        obtain ⟨m1, e1, hgp, hval⟩ :=
          goParseFloat_render neg (rneOfFin m0 e0) hrepN hltN
        have hs0 : sprintF0 (.finite neg m0 e0) =
            (if neg then "-" else "") ++ String.mk (natDecRepr (rneOfFin m0 e0)) := rfl
        rw [hs0]
        have hne2 : (if neg then "-" else "") ++
            String.mk (natDecRepr (rneOfFin m0 e0)) ≠ "" := by
          cases neg
          · simpa using string_mk_ne_empty _ (natDecRepr_spec (rneOfFin m0 e0)).2.1
          · intro hcon
            have h3 := congrArg String.toList hcon
            have h4 : ('-' :: natDecRepr (rneOfFin m0 e0) : List Char) = [] := h3
            cases h4
        unfold formatTradeID
        rw [if_neg hne2, hgp]
        show (if neg then "-" else "") ++ String.mk (natDecRepr (rneOfFin m1 e1)) =
          (if neg then "-" else "") ++ String.mk (natDecRepr (rneOfFin m0 e0))
        rw [hval]

theorem rneNatFrac_dist (n d : Nat) (hd : 0 < d) :
    |(rneNatFrac n d : ℚ) - (n : ℚ) / d| ≤ 1 / 2 := by
  have hmod : d * (n / d) + n % d = n := Nat.div_add_mod n d
  have hr : n % d < d := Nat.mod_lt _ hd
  have hdq : (0:ℚ) < (d:ℚ) := by exact_mod_cast hd
  have hdq0 : (d:ℚ) ≠ 0 := ne_of_gt hdq
  have hn : (n:ℚ) = (d:ℚ) * ((n / d : Nat) : ℚ) + ((n % d : Nat) : ℚ) := by
    exact_mod_cast hmod.symm
  have hfrac : (n : ℚ) / d = ((n / d : Nat) : ℚ) + ((n % d : Nat) : ℚ) / d := by
    rw [hn]
    field_simp
    ring
  unfold rneNatFrac
  split
  · rename_i h1
    rw [hfrac]
    have he : ((n / d : Nat) : ℚ) - (((n / d : Nat) : ℚ) + ((n % d : Nat) : ℚ) / d) =
        -(((n % d : Nat) : ℚ) / d) := by ring
    rw [he, abs_neg, abs_of_nonneg (by positivity)]
    rw [div_le_div_iff₀ hdq (by norm_num)]
    have h2 : ((n % d : Nat) : ℚ) * 2 ≤ ((d : Nat) : ℚ) := by
      exact_mod_cast (by omega : (n % d) * 2 ≤ d)
    linarith
  · split
    · rename_i h1 h2
      rw [hfrac]
      have he : (((n / d + 1 : Nat)) : ℚ) - (((n / d : Nat) : ℚ) + ((n % d : Nat) : ℚ) / d) =
          ((d : ℚ) - ((n % d : Nat) : ℚ)) / d := by
        push_cast
        field_simp
        ring
      rw [he]
      have hnum : (0:ℚ) ≤ (d : ℚ) - ((n % d : Nat) : ℚ) := by
        have : ((n % d : Nat) : ℚ) ≤ (d : ℚ) := by exact_mod_cast le_of_lt hr
        linarith
      rw [abs_of_nonneg (by positivity)]
      rw [div_le_div_iff₀ hdq (by norm_num)]
      have h3 : ((d : Nat) : ℚ) < ((n % d : Nat) : ℚ) * 2 := by
        exact_mod_cast (by omega : d < (n % d) * 2)
      linarith
    · rename_i h1 h2
      have htieq : ((n % d : Nat) : ℚ) / d = 1 / 2 := by
        rw [div_eq_div_iff hdq0 (by norm_num : (2:ℚ) ≠ 0)]
        exact_mod_cast (by omega : (n % d) * 2 = 1 * d)
      split
      · rw [hfrac, htieq]
        have he : ((n / d : Nat) : ℚ) - (((n / d : Nat) : ℚ) + 1 / 2) = -(1 / 2) := by ring
        rw [he, abs_neg, abs_of_nonneg (by norm_num)]
      · rw [hfrac, htieq]
        have he : (((n / d + 1 : Nat)) : ℚ) - (((n / d : Nat) : ℚ) + 1 / 2) = 1 / 2 := by
          push_cast
          ring
        rw [he, abs_of_nonneg (by norm_num)]

theorem rneOfFin_dist (m : Nat) (e : Int) : |(rneOfFin m e : ℚ) - finVal m e| ≤ 1 / 2 := by
  unfold rneOfFin finVal
  by_cases hpos : (0:Int) ≤ e
  · rw [if_pos hpos]
    have hzp : ((2:ℚ) ^ e) = ((2:ℚ) ^ e.toNat) := by
      rw [← zpow_natCast]
      congr 1
      omega
    rw [hzp]
    have : ((m * 2 ^ e.toNat : Nat) : ℚ) = (m : ℚ) * 2 ^ e.toNat := by push_cast; ring
    rw [this, sub_self, abs_zero]
    norm_num
  · rw [if_neg hpos]
    have hzp : (2:ℚ) ^ e = ((2 ^ (-e).toNat : Nat) : ℚ)⁻¹ := by
      have hcast : ((2 ^ (-e).toNat : Nat) : ℚ) = (2:ℚ) ^ ((-e).toNat : Nat) := by
        push_cast
        rfl
      rw [hcast, ← zpow_natCast, ← zpow_neg]
      congr 1
      omega
    rw [hzp]
    have hd : 0 < 2 ^ (-e).toNat := by positivity
    have := rneNatFrac_dist m (2 ^ (-e).toNat) hd
    rw [div_eq_mul_inv] at this
    exact this

set_option maxRecDepth 200000 in
/-- C6: the trade-ID normalizer maps the empty string to itself; returns
any string `ParseFloat` rejects (syntax or range error) unchanged; renders
any string parsed to a finite double as an optional sign followed by a
plain decimal integer string whose value is within one half of the double's
exact value (round to nearest integer); and in particular normalizes
`1.000000012345e+12` to `1000000012345`. -/
theorem formatTradeID_spec :
    formatTradeID "" = "" ∧
    (∀ s : String, goParseFloat s = none → formatTradeID s = s) ∧
    (∀ (s : String) (neg : Bool) (m : Nat) (e : Int),
      goParseFloat s = some (.finite neg m e) →
      ∃ n : Nat, formatTradeID s = (if neg then "-" else "") ++ String.mk (natDecRepr n) ∧
        |(n : ℚ) - finVal m e| ≤ 1 / 2) ∧
    formatTradeID "1.000000012345e+12" = "1000000012345" := by
  refine ⟨rfl, ?_, ?_, ?_⟩
  · intro s hnone
    by_cases hs : s = ""
    · subst hs; rfl
    · unfold formatTradeID
      rw [if_neg hs, hnone]
  · intro s neg m e hpf
    have hs : s ≠ "" := by
      intro h
      subst h
      rw [show goParseFloat "" = none from rfl] at hpf
      cases hpf
    refine ⟨rneOfFin m e, ?_, rneOfFin_dist m e⟩
    unfold formatTradeID
    rw [if_neg hs, hpf]
    rfl
  · decide

theorem trade_pairing_witness :
    (processK33Record (processK33Record []
        ⟨"Trade", "1000000012345", "Buy", "1000", "Filled", "USD",
         "2023/01/15 10:30:45", "", ""⟩).1
      ⟨"Trade", "1000000012345", "Sell", "-0.5", "Filled", "BTC",
       "2023/01/15 10:30:45", "", ""⟩).2 =
      [{ emptyKoinly with
          Date := "2023-01-15 10:30:45",
          SentAmount := "0.5", SentCurrency := "BTC",
          ReceivedAmount := "1000", ReceivedCurrency := "USD",
          Description := "Trade (K33) - 1000000012345" }] := by
  have h := trade_pairing []
    ⟨"Trade", "1000000012345", "Buy", "1000", "Filled", "USD",
     "2023/01/15 10:30:45", "", ""⟩
    ⟨"Trade", "1000000012345", "Sell", "-0.5", "Filled", "BTC",
     "2023/01/15 10:30:45", "", ""⟩
    rfl rfl rfl (by decide) (by decide) (by decide) rfl (Or.inl ⟨rfl, rfl⟩)
  exact h.2.1.trans (by decide)

theorem classifier_dispatch_witness :
    processK33Record []
      ⟨"Deposit Complete", "", "", "1000", "", "USD",
       "2023/01/15 10:30:45", "0xabc123", ""⟩ =
      ([], [{ emptyKoinly with
              Date := "2023-01-15 10:30:45", ReceivedAmount := "1000",
              ReceivedCurrency := "USD", Description := "Deposit (K33)",
              TxHash := "0xabc123" }]) := by
  have h := (classifier_dispatch []
    ⟨"Deposit Complete", "", "", "1000", "", "USD",
     "2023/01/15 10:30:45", "0xabc123", ""⟩).2.1 (by decide) (by decide) (by decide)
  exact h.trans (by decide)

theorem reject_skipped_witness :
    processLoop ["Trade Status"] [] [.ok ["Reject"], .ok ["Filled"]] =
      processLoop ["Trade Status"] [] [.ok ["Filled"]] :=
  reject_skipped ["Trade Status"] [] [] [.ok ["Filled"]] ["Reject"] (by decide)

theorem unpaired_trade_behavior_witness :
    (∃ cF recs,
      processLoop ["Type/Status"] [] (([] : List (List String)).map .ok) = .ok (cF, recs) ∧
      Process [] (.ok ["Type/Status"] :: ([] : List (List String)).map .ok) =
        .ok ⟨recs, unpairedIDs cF⟩ ∧
      ∀ id t, (id, t) ∈ cF → (t.BuyLeg.isSome || t.SellLeg.isSome) = true →
        (unpairedIDs cF).count id = 1) ∧
    (processK33Record []
      ⟨"Trade", "42", "Buy", "1", "", "BTC", "2023/01/15 10:30:45", "", ""⟩).2 = [] :=
  ⟨unpaired_trade_behavior.1 ["Type/Status"] [],
   unpaired_trade_behavior.2 [] _ rfl (by decide)⟩

theorem convertTimestamp_spec_witness :
    convertTimestamp "2023/01/15 10:30:45" = slashToDash "2023/01/15 10:30:45" ∧
    convertTimestamp "garbage" = "garbage" :=
  ⟨(convertTimestamp_spec "2023/01/15 10:30:45").1 (by decide),
   (convertTimestamp_spec "garbage").2 (by decide)⟩

set_option maxRecDepth 200000 in
theorem formatTradeID_spec_witness :
    formatTradeID "abc" = "abc" ∧
    (∃ n : Nat, formatTradeID "1.5" =
        (if false then "-" else "") ++ String.mk (natDecRepr n) ∧
      |(n : ℚ) - finVal 6755399441055744 (-52)| ≤ 1 / 2) :=
  ⟨formatTradeID_spec.2.1 "abc" (by decide),
   formatTradeID_spec.2.2.1 "1.5" false 6755399441055744 (-52) (by decide)⟩

theorem trade_empty_id_noop_witness :
    processK33Record []
      ⟨"Trade", "", "Buy", "1", "", "BTC", "2023/01/15 10:30:45", "", ""⟩ = ([], []) :=
  trade_empty_id_noop [] _ rfl rfl

theorem dryrun_matches_process_witness :
    (Process [] ([] : List ReadEvent) = .error "reading header: EOF" ↔
      ProcessDryRun [] ([] : List ReadEvent) = .error "reading header: EOF") ∧
    List.filterMap dryRecOf [] = ProcessOut.records ⟨[], []⟩ :=
  ⟨(dryrun_matches_process [] []).1 "reading header: EOF",
   (dryrun_matches_process [] [.ok ["Type/Status"]]).2 ⟨[], []⟩ [] rfl rfl⟩

theorem store_single_leg_witness :
    (("42", ({ TradeID := "42", Timestamp := "2023-01-15 10:30:45",
               BuyLeg := none,
               SellLeg := some ⟨"Trade", "42", "Sell", "-1", "", "BTC",
                 "2023/01/15 10:30:45", "", ""⟩ } : TradePair)) :
        String × TradePair).2.BuyLeg = none ∨
    (("42", ({ TradeID := "42", Timestamp := "2023-01-15 10:30:45",
               BuyLeg := none,
               SellLeg := some ⟨"Trade", "42", "Sell", "-1", "", "BTC",
                 "2023/01/15 10:30:45", "", ""⟩ } : TradePair)) :
        String × TradePair).2.SellLeg = none :=
  store_single_leg
    [⟨"Trade", "42", "Sell", "-1", "", "BTC", "2023/01/15 10:30:45", "", ""⟩]
    _ (by decide)
